import Mathlib

set_option linter.unusedVariables false
set_option maxHeartbeats 1000000

/-! Verification development for the navl file-tree viewer.

The embedding covers `src/navl/file_tree_viewer.py` (tree node store,
visible-sequence flattening, navigation state machine, refresh) and the
root-path validation of `src/navl/navl.py`.  Filesystem paths are lists of
name segments; the filesystem itself is an abstract oracle supplied as a
structure of functions.  Entry names are `String`s compared by the
code-point order Python uses; the comparison is spelled out on the
character lists so that it evaluates inside the kernel. -/

/-- Lexicographic order on character lists by code point: exactly the order
Python string comparison (and hence `sorted` on the paths of one directory)
uses. -/
def charListLe : List Char → List Char → Bool
  | [], _ => true
  | _ :: _, [] => false
  | a :: as, b :: bs =>
    if a.val.toNat < b.val.toNat then true
    else if b.val.toNat < a.val.toNat then false
    else charListLe as bs

/-- Name order used by `sorted(self.path.iterdir())`: entries of one parent
directory compare exactly by their final name component. -/
def nameLe (a b : String) : Bool := charListLe a.data b.data

/-- Models `item.name.startswith(".")` — the hidden-name rule of
`load_children`. -/
def isHidden (x : String) : Bool :=
  match x.data with
  | [] => false
  | c :: _ => c = '.'

/-- Embeds the `TreeNode` class (file_tree_viewer.py lines 18-52).  The Python
object carries `path`, `parent`, `children`, `expanded`, `is_directory`; the
parent back-pointer is not stored here — it is recovered by searching the
tree (`findParentNode` below), which agrees with the pointer on the trees the
viewer builds, whose paths are distinct. -/
inductive TreeNode : Type where
  | mk (path : List String) (isDirectory : Bool) (expanded : Bool)
      (children : List TreeNode) : TreeNode

namespace TreeNode

def path : TreeNode → List String
  | mk p _ _ _ => p

def isDirectory : TreeNode → Bool
  | mk _ d _ _ => d

def expanded : TreeNode → Bool
  | mk _ _ e _ => e

def children : TreeNode → List TreeNode
  | mk _ _ _ cs => cs

end TreeNode

mutual

/-- Structural equality test on nodes.  Python compares node objects by
identity; on the trees the viewer builds, nodes are uniquely determined by
their value (distinct paths), so structural equality models identity. -/
def TreeNode.beq : TreeNode → TreeNode → Bool
  | .mk p d e cs, .mk p2 d2 e2 cs2 =>
      decide (p = p2) && (d == d2) && (e == e2) && TreeNode.beqList cs cs2

def TreeNode.beqList : List TreeNode → List TreeNode → Bool
  | [], [] => true
  | c :: cs, c2 :: cs2 => TreeNode.beq c c2 && TreeNode.beqList cs cs2
  | _, _ => false

end

/-- The display name of a child node: the final segment of its path (Python
`path.name`). -/
def childName (c : TreeNode) : String := c.path.getLastD ("")

/-- Abstract filesystem oracle.  `pathExists` models `Path.exists()`, `isDir`
models `Path.is_dir()`, and `listDir` models enumerating the entry names of
a directory, restricted to filesystems whose only enumeration failure is the
`PermissionError` that `load_children` catches: `none` is that failure.
`FsE` below also carries the failure kinds the source does not catch. -/
structure Fs where
  pathExists : List String → Bool
  isDir : List String → Bool
  listDir : List String → Option (List String)

/-- Models Python `sorted` on the entries of one directory. -/
def sortNames (ns : List String) : List String :=
  List.insertionSort (fun a b => nameLe a b = true) ns

/-- The entry names `load_children` admits: the enumeration (empty on the
swallowed permission failure), sorted, with hidden names filtered out,
exactly as in lines 39-43 of file_tree_viewer.py. -/
def admittedNames (fs : Fs) (p : List String) : List String :=
  match fs.listDir p with
  | none => []
  | some ns => (sortNames ns).filter (fun x => !(isHidden x))

/-- A child node as created by `TreeNode(item, self)`: path extended by the
entry name, `is_directory` from a fresh filesystem stat, collapsed, no
children. -/
def freshChild (isDir : List String → Bool) (p : List String) (x : String) :
    TreeNode :=
  TreeNode.mk (p ++ [x]) (isDir (p ++ [x])) false []

/-- Embeds `TreeNode.load_children` (file_tree_viewer.py lines 34-45): no-op
on non-directories and on already-populated nodes, otherwise admit, sort and
attach the children.  A permission failure leaves the children empty (the
`except PermissionError: pass` branch), which `admittedNames` renders as
`[]`. -/
def loadChildren (fs : Fs) (n : TreeNode) : TreeNode :=
  if !n.isDirectory || !n.children.isEmpty then n
  else
    TreeNode.mk n.path n.isDirectory n.expanded
      ((admittedNames fs n.path).map (freshChild fs.isDir n.path))

/-- The enumeration failure kinds: the `PermissionError` that `load_children`
catches, and every other `OSError` an enumeration can raise. -/
inductive FsErr where
  | permission
  | other
deriving DecidableEq

/-- Filesystem oracle carrying failure kinds, for the error-propagation
analysis of `load_children`. -/
structure FsE where
  isDir : List String → Bool
  listDir : List String → Except FsErr (List String)

/-- Embeds `TreeNode.load_children` over the kinded oracle: the `try` block
body either completes, is cut short by the caught `PermissionError` (node
unchanged), or re-raises any other failure to the caller — the source has no
handler for it. -/
def loadChildrenE (fs : FsE) (n : TreeNode) : Except FsErr TreeNode :=
  if !n.isDirectory || !n.children.isEmpty then .ok n
  else
    match fs.listDir n.path with
    | .error .permission => .ok n
    | .error .other => .error .other
    | .ok ns =>
        .ok (TreeNode.mk n.path n.isDirectory n.expanded
          (((sortNames ns).filter (fun x => !(isHidden x))).map
            (freshChild fs.isDir n.path)))

/-- Embeds `TreeNode.toggle_expanded` (lines 47-52): directories load their
children when transitioning collapsed to expanded, then flip the flag;
non-directories are untouched. -/
def toggleExpanded (fs : Fs) (n : TreeNode) : TreeNode :=
  if n.isDirectory then
    let m := if !n.expanded then loadChildren fs n else n
    TreeNode.mk m.path m.isDirectory (!m.expanded) m.children
  else n

mutual

/-- Embeds `FileTreeViewer._collect_visible_nodes` (lines 186-195): the node
itself, then — only when it is expanded — its children recursively, in
stored order. -/
def collectVisibleNodes : TreeNode → List TreeNode
  | .mk p d e cs =>
      TreeNode.mk p d e cs :: (if e then collectVisibleList cs else [])

def collectVisibleList : List TreeNode → List TreeNode
  | [] => []
  | c :: cs => collectVisibleNodes c ++ collectVisibleList cs

end

mutual

/-- Full depth-first pre-order walk of a tree (every node, expanded or
not). -/
def allNodes : TreeNode → List TreeNode
  | .mk p d e cs => TreeNode.mk p d e cs :: allNodesList cs

def allNodesList : List TreeNode → List TreeNode
  | [] => []
  | c :: cs => allNodes c ++ allNodesList cs

end

mutual

/-- Spec-side counterpart used to state C1.  Following the spec's words, it
removes the subtree of every collapsed node ("skipping the subtree of any
collapsed directory entirely"), so that the spec's visible sequence is the
full depth-first pre-order walk `allNodes` of the pruned tree. -/
def pruneCollapsed : TreeNode → TreeNode
  | .mk p d e cs => TreeNode.mk p d e (if e then pruneList cs else [])

def pruneList : List TreeNode → List TreeNode
  | [] => []
  | c :: cs => pruneCollapsed c :: pruneList cs

end

/-- The attributes of one visible line as the renderer consumes them (spec
section 6: path, directory flag, expansion flag; depth is derived from the
path). -/
def renderInfo (n : TreeNode) : (List String) × Bool × Bool :=
  (n.path, n.isDirectory, n.expanded)

mutual

/-- Well-formed tree: every child's path extends its parent's path by exactly
its own name, and sibling names are distinct.  This holds for every tree the
viewer builds (children are created as `parent.path / name` from a directory
listing) and makes node values play the role of Python object identity. -/
def wfNode : TreeNode → Bool
  | .mk p _ _ cs => decide ((cs.map childName).Nodup) && wfList p cs

def wfList (p : List String) : List TreeNode → Bool
  | [] => true
  | c :: cs =>
      !c.path.isEmpty && decide (c.path.dropLast = p) && wfNode c && wfList p cs

end

mutual

/-- Recovers the `parent` pointer of a node: the first node in depth-first
order having `target` among its children.  On well-formed trees this is the
unique structural parent, i.e. exactly what the Python back-pointer
designates. -/
def findParentNode : TreeNode → TreeNode → Option TreeNode
  | .mk p d e cs, target =>
    if cs.any (fun c => TreeNode.beq c target) then some (.mk p d e cs)
    else findParentList cs target

def findParentList : List TreeNode → TreeNode → Option TreeNode
  | [], _ => none
  | c :: cs, t =>
    match findParentNode c t with
    | some d => some d
    | none => findParentList cs t

end

mutual

/-- The first node with the given path in depth-first order (unique on
well-formed trees). -/
def findNodeByPath : TreeNode → List String → Option TreeNode
  | .mk q d e cs, p =>
    if q = p then some (.mk q d e cs) else findPathList cs p

def findPathList : List TreeNode → List String → Option TreeNode
  | [], _ => none
  | c :: cs, p =>
    match findNodeByPath c p with
    | some m => some m
    | none => findPathList cs p

end

mutual

/-- In-place mutation of one node: Python's `node.toggle_expanded()` mutates
the node object the cached tuple points at; here the node is addressed by its
path (unique on well-formed trees) and the tree around it is rebuilt
unchanged. -/
def toggleAtPath (fs : Fs) : TreeNode → List String → TreeNode
  | .mk q d e cs, p =>
    if q = p then toggleExpanded fs (.mk q d e cs)
    else TreeNode.mk q d e (toggleListAtPath fs cs p)

def toggleListAtPath (fs : Fs) : List TreeNode → List String → List TreeNode
  | [], _ => []
  | c :: cs, p => toggleAtPath fs c p :: toggleListAtPath fs cs p

end

mutual

/-- Embeds `FileTreeViewer._collect_expanded_paths` (lines 170-176): the
node's own path when it is expanded, then the paths of all descendants,
visited whether or not the node itself is expanded. -/
def collectExpandedPaths : TreeNode → List (List String)
  | .mk p _ e cs => (if e then [p] else []) ++ collectExpandedList cs

def collectExpandedList : List TreeNode → List (List String)
  | [] => []
  | c :: cs => collectExpandedPaths c ++ collectExpandedList cs

end

/-- Embeds `FileTreeViewer._restore_expanded_state` (lines 178-184), with an
explicit recursion bound: a node whose path is in the expanded set is forced
expanded, loaded, and its children are restored recursively; any other node
is left untouched.  Each recursion level below a restored node consumes one
element of the finite expanded-path set (children extend their parent's
path), so `S.length + 2` levels — the bound `restoreExpandedState` passes —
are more than the recursion of the source can ever use on the trees refresh
builds. -/
def restoreFuel (fs : Fs) (S : List (List String)) :
    Nat → TreeNode → TreeNode
  | 0, n => n
  | fuel + 1, n =>
    if n.path ∈ S then
      let m := loadChildren fs (TreeNode.mk n.path n.isDirectory true n.children)
      TreeNode.mk m.path m.isDirectory m.expanded
        (m.children.map (restoreFuel fs S fuel))
    else n

def restoreExpandedState (fs : Fs) (S : List (List String)) (n : TreeNode) :
    TreeNode :=
  restoreFuel fs S (S.length + 2) n

/-- Embeds `FileTreeViewer._init_root_node` (lines 99-102): the root is
created expanded and its children are loaded eagerly. -/
def initRootNode (fs : Fs) (p : List String) : TreeNode :=
  loadChildren fs (TreeNode.mk p (fs.isDir p) true [])

/-- The mutable state of `FileTreeViewer`: the configured root path, the root
node, the selection index (a Python `int`), and the cached `visible_nodes`
tuple written by `_update_display`. -/
structure ViewerState where
  rootPath : List String
  root : TreeNode
  selectedIndex : Int
  visibleNodes : List TreeNode

/-- Embeds `FileTreeViewer._update_display` (lines 229-237): recompute the
visible tuple from the current tree, then clamp the selection index into
range before any indexing. -/
def updateDisplay (s : ViewerState) : ViewerState :=
  let vis := collectVisibleNodes s.root
  let i1 : Int :=
    if s.selectedIndex ≥ (vis.length : Int) then (vis.length : Int) - 1
    else s.selectedIndex
  let i2 : Int := if i1 < 0 then 0 else i1
  { s with visibleNodes := vis, selectedIndex := i2 }

/-- Embeds the `up` key handler `move_up` (lines 108-111). -/
def moveUp (s : ViewerState) : ViewerState :=
  if 0 < s.selectedIndex then { s with selectedIndex := s.selectedIndex - 1 }
  else s

/-- Embeds the `down` key handler `move_down` (lines 113-116). -/
def moveDown (s : ViewerState) : ViewerState :=
  if s.selectedIndex < (s.visibleNodes.length : Int) - 1 then
    { s with selectedIndex := s.selectedIndex + 1 }
  else s

/-- Embeds the `space` key handler `toggle_node` (lines 124-128).  The inner
`none` branch is out-of-range indexing, which the viewer's invariant rules
out (Python would raise `IndexError` there). -/
def toggleNode (fs : Fs) (s : ViewerState) : ViewerState :=
  if s.visibleNodes.isEmpty then s
  else
    match s.visibleNodes[s.selectedIndex.toNat]? with
    | some node => { s with root := toggleAtPath fs s.root node.path }
    | none => s

/-- Embeds the `right` key handler `expand_node` (lines 130-135). -/
def expandNode (fs : Fs) (s : ViewerState) : ViewerState :=
  if s.visibleNodes.isEmpty then s
  else
    match s.visibleNodes[s.selectedIndex.toNat]? with
    | some node =>
      if node.isDirectory && !node.expanded then
        { s with root := toggleAtPath fs s.root node.path }
      else s
    | none => s

/-- Embeds the `left` key handler `collapse_node` (lines 137-146): collapse
the selected expanded directory, otherwise jump the selection to the parent's
position in the cached visible tuple (`visible_nodes.index(node.parent)`,
first occurrence). -/
def collapseNode (fs : Fs) (s : ViewerState) : ViewerState :=
  if s.selectedIndex < (s.visibleNodes.length : Int) then
    match s.visibleNodes[s.selectedIndex.toNat]? with
    | some node =>
      if node.isDirectory && node.expanded then
        { s with root := toggleAtPath fs s.root node.path }
      else
        match findParentNode s.root node with
        | some par =>
            { s with selectedIndex :=
                (s.visibleNodes.findIdx (fun m => TreeNode.beq m par) : Int) }
        | none => s
    | none => s
  else s

/-- Embeds `FileTreeViewer._refresh_tree` (lines 159-168): collect the
expanded paths, rebuild the root eagerly, restore expansion by path, reset
the selection index to 0.  The cached visible tuple is not touched. -/
def refreshTree (fs : Fs) (s : ViewerState) : ViewerState :=
  let expandedPaths := collectExpandedPaths s.root
  let root2 := initRootNode fs s.rootPath
  let root3 := restoreExpandedState fs expandedPaths root2
  { s with root := root3, selectedIndex := 0 }

/-- The value `select_and_exit` (lines 118-122) hands to `event.app.exit`:
the path of the selected node, or nothing when the visible tuple is empty. -/
def selectResult (s : ViewerState) : Option (List String) :=
  if s.visibleNodes.isEmpty then none
  else (s.visibleNodes[s.selectedIndex.toNat]?).map TreeNode.path

/-- The dispatched commands (one per key binding of `_setup_key_bindings`). -/
inductive Cmd where
  | up
  | down
  | enter
  | space
  | right
  | left
  | quit
  | refresh
deriving DecidableEq

/-- Dispatch of one command to its handler.  `enter` and `quit` end the
session without mutating the navigation state. -/
def applyCmd (fs : Fs) (s : ViewerState) : Cmd → ViewerState
  | .up => moveUp s
  | .down => moveDown s
  | .enter => s
  | .space => toggleNode fs s
  | .right => expandNode fs s
  | .left => collapseNode fs s
  | .quit => s
  | .refresh => refreshTree fs s

/-- One iteration of the interactive loop: prompt_toolkit redraws the control
(running `_update_display`) before each key event is handled, so every
command sees a freshly computed, clamped state. -/
def step (fs : Fs) (s : ViewerState) (c : Cmd) : ViewerState :=
  applyCmd fs (updateDisplay s) c

/-- Embeds `FileTreeViewer.__init__` (lines 60-64): eager root construction,
selection index 0; the `visible_nodes` cache is not yet populated. -/
def initViewer (fs : Fs) (p : List String) : ViewerState :=
  { rootPath := p
    root := initRootNode fs p
    selectedIndex := 0
    visibleNodes := [] }

/-- The state as first presented to the user: construction followed by the
first draw (which runs `_update_display` before any key can be pressed). -/
def initState (fs : Fs) (p : List String) : ViewerState :=
  updateDisplay (initViewer fs p)

/-- States reachable from construction by any sequence of commands (a redraw
precedes every command; see `step`). -/
inductive Reachable (fs : Fs) (p : List String) : ViewerState → Prop where
  | init : Reachable fs p (initState fs p)
  | next {s : ViewerState} (c : Cmd) :
      Reachable fs p s → Reachable fs p (step fs s c)

/-- `Subnode r m`: `m` is a node of the tree rooted at `r` (reflexive
descendant relation along child edges). -/
inductive Subnode : TreeNode → TreeNode → Prop where
  | refl (n : TreeNode) : Subnode n n
  | child {r d c : TreeNode} : Subnode r d → c ∈ d.children → Subnode r c

/-- `m` lies strictly inside the subtree of `r`. -/
def StrictSubnode (r m : TreeNode) : Prop := ∃ c ∈ r.children, Subnode c m

/-- The spec's notion of visibility: the root, plus the children of every
visible expanded node. -/
inductive Visible (r : TreeNode) : TreeNode → Prop where
  | root : Visible r r
  | child {d c : TreeNode} :
      Visible r d → d.expanded = true → c ∈ d.children → Visible r c

/-- `ChainS S r m`: `m` is reachable from `r` through nodes all of whose
paths are in `S` (the path of `m` itself is not constrained).  This is the
descent condition of `_restore_expanded_state`. -/
inductive ChainS (S : List (List String)) (r : TreeNode) : TreeNode → Prop where
  | refl : ChainS S r r
  | step {d c : TreeNode} :
      ChainS S r d → d.path ∈ S → c ∈ d.children → ChainS S r c

/-- All paths of the tree are distinct (consequence of `wfNode`, stated
separately because several lemmas need only this). -/
def NodupPaths (r : TreeNode) : Prop := ((allNodes r).map TreeNode.path).Nodup

/-- Well-behaved filesystem oracle: a directory listing never repeats a
name (true of every real filesystem). -/
def FsOk (fs : Fs) : Prop := ∀ p ns, fs.listDir p = some ns → ns.Nodup

/-- Modelled from the spec: the ignore-pattern matcher capability
(`gitignore_parser` object) that the repository's tests pass to `TreeNode`
but whose `TreeNode` integration is missing from the sources under `src`.
The core never inspects the matcher's internals (spec §9). -/
structure IgnoreMatcher where
  matchesPath : List String → Bool

/-- The ignore-definition file artifact. -/
def ignoreFileName : String := ".gitignore"

def matchesOpt (ign : Option IgnoreMatcher) (p : List String) : Bool :=
  match ign with
  | none => false
  | some g => g.matchesPath p

/-- Modelled from the spec (§4.1 and §3, confirmed by
tests/test_file_tree_viewer.py lines 66-102): the names a directory load
admits under an inherited ignore matcher.  The hidden-name rule applies
first, then the inherited matcher rule, except that the ignore-definition
file itself is always retained if present. -/
def admittedNamesIgnore (fs : Fs) (ign : Option IgnoreMatcher)
    (p : List String) : List String :=
  match fs.listDir p with
  | none => []
  | some ns =>
      (sortNames ns).filter (fun x =>
        decide (x = ignoreFileName) ||
          (!(isHidden x) && !(matchesOpt ign (p ++ [x]))))

/-- Modelled from the spec: the children a load under an ignore matcher
creates — one child per admitted name, each inheriting the parent's matcher
reference unchanged (spec §4.1: "attach it with a reference to the same
ignore-matcher context as the parent"). -/
def loadChildrenIgnore (fs : Fs) (ign : Option IgnoreMatcher)
    (p : List String) : List ((List String) × Option IgnoreMatcher) :=
  (admittedNamesIgnore fs ign p).map (fun x => (p ++ [x], ign))

/-- Models line 18 of navl.py: the expression `root_path.exists` is an
attribute lookup that yields the bound method object without calling it; a
bound method object is always truthy. -/
def existsAttributeTruthy (fs : Fs) (p : List String) : Bool := true

/-- Models the root-path validation of `main` (navl.py lines 17-20): the
guard is `if not root_path.exists:`, the negation of the always-truthy
attribute, hence never taken. -/
def mainRejectsRootPath (fs : Fs) (p : List String) : Bool :=
  !(existsAttributeTruthy fs p)

/-- Fixture filesystem: a root directory `r` containing one subdirectory `a`
(itself empty) and nothing else. -/
def fsA : Fs :=
  { pathExists := fun p => decide (p = ["r"]) || decide (p = ["r", "a"])
    isDir := fun p => decide (p = ["r"]) || decide (p = ["r", "a"])
    listDir := fun p =>
      if p = ["r"] then some ["a"]
      else if p = ["r", "a"] then some []
      else none }

/-- Fixture tree for exercising the flattening: an expanded root with a
collapsed directory child (hiding a grandchild) and a file child. -/
def tC1 : TreeNode :=
  TreeNode.mk ["r"] true true
    [TreeNode.mk ["r", "a"] true false [TreeNode.mk ["r", "a", "x"] false false []],
      TreeNode.mk ["r", "b"] false false []]

/-- Fixture filesystem mirroring the repository's test fixture: a root `t`
containing `src`, which contains `docs`, `main.py` and `my_lib`. -/
def fsSrc : Fs :=
  { pathExists := fun p =>
      decide (p ∈ [["t"], ["t", "src"], ["t", "src", "docs"],
        ["t", "src", "main.py"], ["t", "src", "my_lib"]])
    isDir := fun p =>
      decide (p ∈ [["t"], ["t", "src"], ["t", "src", "docs"],
        ["t", "src", "my_lib"]])
    listDir := fun p =>
      if p = ["t"] then some ["src"]
      else if p = ["t", "src"] then some ["main.py", "docs", "my_lib"]
      else if p = ["t", "src", "docs"] then some []
      else if p = ["t", "src", "my_lib"] then some []
      else none }

/-- Kinded oracle whose every enumeration fails with permission denied. -/
def fsPermE : FsE :=
  { isDir := fun _ => true, listDir := fun _ => .error .permission }

/-- Kinded oracle whose every enumeration fails with a non-permission
error (for instance the directory vanished between the stat and the
enumeration). -/
def fsOtherE : FsE :=
  { isDir := fun _ => true, listDir := fun _ => .error .other }

/-- Oracle for a root path that does not exist at construction time. -/
def fsMissing : Fs :=
  { pathExists := fun _ => false
    isDir := fun _ => false
    listDir := fun _ => none }

/-- Matcher fixture for the ignore tests: matches exactly `t/src/main.py`
(the pattern `**/main.py` of the repository test). -/
def gMatcher : IgnoreMatcher :=
  { matchesPath := fun p => decide (p = ["t", "src", "main.py"]) }

/-- Filesystem fixture for the ignore tests: `t/src` holds `.gitignore`,
`main.py`, `docs` and `my_lib`, as in the repository test. -/
def fsGit : Fs :=
  { pathExists := fun _ => true
    isDir := fun p =>
      decide (p ∈ [["t", "src"], ["t", "src", "docs"], ["t", "src", "my_lib"]])
    listDir := fun p =>
      if p = ["t", "src"] then some [".gitignore", "main.py", "docs", "my_lib"]
      else none }

/-- The children a load at path `p` creates (empty when `p` is not a
directory). -/
def freshChildren (fs : Fs) (p : List String) : List TreeNode :=
  (admittedNames fs p).map (freshChild fs.isDir p)

/-- The child paths a load at `p` stores: one per admitted name when `p` is a
directory, none otherwise. -/
def loadedChildPaths (fs : Fs) (p : List String) : List (List String) :=
  (if fs.isDir p = true then admittedNames fs p else []).map
    (fun x => p ++ [x])

/-- Characterizes the trees `_restore_expanded_state` produces from fresh
(collapsed, unloaded) nodes: a node whose path is outside the expanded set is
untouched; a node inside it is expanded, its children freshly loaded and
restored recursively. -/
inductive RestoredFresh (fs : Fs) (S : List (List String)) : TreeNode → Prop
  | skip {q : List String} {δ : Bool} (h : q ∉ S) :
      RestoredFresh fs S (TreeNode.mk q δ false [])
  | load {q : List String} {δ : Bool} {cs : List TreeNode} (h : q ∈ S)
      (hpaths : cs.map TreeNode.path = loadedChildPaths fs q)
      (hdirs : ∀ c ∈ cs, c.isDirectory = fs.isDir c.path)
      (hrec : ∀ c ∈ cs, RestoredFresh fs S c) :
      RestoredFresh fs S (TreeNode.mk q δ true cs)

/-- State after expanding `r/a` and then collapsing the root, starting from a
fresh viewer over `fsA` (down, right to expand `a`, up, space to collapse the
root). -/
def s4C2 : ViewerState :=
  step fsA (step fsA (step fsA (step fsA (initState fsA ["r"]) Cmd.down)
    Cmd.right) Cmd.up) Cmd.space

/-- The state `s4C2` after dispatching refresh. -/
def s5C2 : ViewerState := step fsA s4C2 Cmd.refresh

/-- The session invariant: the configured and actual root paths agree, the
tree is well-formed, the selection index is in range of the non-empty cached
visible tuple, whose first entry is the root path. -/
def StateInv (p : List String) (s : ViewerState) : Prop :=
  s.rootPath = p ∧ s.root.path = p ∧ wfNode s.root = true ∧
    0 ≤ s.selectedIndex ∧
    s.selectedIndex < (s.visibleNodes.length : Int) ∧
    s.visibleNodes ≠ [] ∧
    s.visibleNodes.head?.map TreeNode.path = some p

/-! Order lemmas for the name comparison. -/

theorem charListLe_cons (a b : Char) (as bs : List Char) :
    charListLe (a :: as) (b :: bs) =
      (if a.val.toNat < b.val.toNat then true
        else if b.val.toNat < a.val.toNat then false else charListLe as bs) := rfl

theorem charListLe_total : ∀ x y : List Char,
    charListLe x y = true ∨ charListLe y x = true := by
  intro x
  induction x with
  | nil => intro y; left; rfl
  | cons c cs ih =>
    intro y
    cases y with
    | nil => right; rfl
    | cons d ds =>
      rw [charListLe_cons, charListLe_cons]
      rcases Nat.lt_trichotomy c.val.toNat d.val.toNat with h | h | h
      · left; simp [h]
      · rcases ih ds with h2 | h2 <;> simp [h, h2]
      · right; simp [h, Nat.lt_asymm h]

theorem charListLe_trans : ∀ x y z : List Char,
    charListLe x y = true → charListLe y z = true → charListLe x z = true := by
  intro x
  induction x with
  | nil => intro y z _ _; rfl
  | cons p ps ih =>
    intro y z h1 h2
    cases y with
    | nil => exact absurd h1 (by simp [charListLe])
    | cons q qs =>
      cases z with
      | nil => exact absurd h2 (by simp [charListLe])
      | cons r rs =>
        rw [charListLe_cons] at h1 h2 ⊢
        rcases Nat.lt_trichotomy p.val.toNat q.val.toNat with hpq | hpq | hpq <;>
          rcases Nat.lt_trichotomy q.val.toNat r.val.toNat with hqr | hqr | hqr
        · simp [show p.val.toNat < r.val.toNat by omega]
        · simp [show p.val.toNat < r.val.toNat by omega]
        · rw [if_neg (by omega), if_pos hqr] at h2; exact absurd h2 (by simp)
        · simp [show p.val.toNat < r.val.toNat by omega]
        · rw [if_neg (by omega), if_neg (by omega)] at h1
          rw [if_neg (by omega), if_neg (by omega)] at h2
          rw [if_neg (by omega), if_neg (by omega)]
          exact ih qs rs h1 h2
        · rw [if_neg (by omega), if_pos hqr] at h2; exact absurd h2 (by simp)
        · rw [if_neg (by omega), if_pos hpq] at h1; exact absurd h1 (by simp)
        · rw [if_neg (by omega), if_pos hpq] at h1; exact absurd h1 (by simp)
        · rw [if_neg (by omega), if_pos hpq] at h1; exact absurd h1 (by simp)

theorem sortNames_sorted (ns : List String) :
    List.Sorted (fun a b => nameLe a b = true) (sortNames ns) := by
  haveI : IsTotal String (fun a b => nameLe a b = true) :=
    ⟨fun a b => charListLe_total a.data b.data⟩
  haveI : IsTrans String (fun a b => nameLe a b = true) :=
    ⟨fun a b c => charListLe_trans a.data b.data c.data⟩
  exact List.sorted_insertionSort _ ns

theorem sortNames_perm (ns : List String) : List.Perm (sortNames ns) ns :=
  List.perm_insertionSort _ ns

/-! Structural toolkit for the node type. -/

theorem TreeNode.my_ind (motive : TreeNode → Prop)
    (h : ∀ p d e cs, (∀ c ∈ cs, motive c) → motive (TreeNode.mk p d e cs)) :
    ∀ n, motive n := by
  refine fun n => @TreeNode.rec motive (fun cs => ∀ c ∈ cs, motive c) h ?_ ?_ n
  · intro c hc; exact absurd hc (List.not_mem_nil c)
  · intro head tail hh ht c hc
    rcases List.mem_cons.mp hc with rfl | hc
    · exact hh
    · exact ht c hc

@[simp] theorem TreeNode.path_mk (p : List String) (d e : Bool)
    (cs : List TreeNode) : (TreeNode.mk p d e cs).path = p := rfl

@[simp] theorem TreeNode.isDirectory_mk (p : List String) (d e : Bool)
    (cs : List TreeNode) : (TreeNode.mk p d e cs).isDirectory = d := rfl

@[simp] theorem TreeNode.expanded_mk (p : List String) (d e : Bool)
    (cs : List TreeNode) : (TreeNode.mk p d e cs).expanded = e := rfl

@[simp] theorem TreeNode.children_mk (p : List String) (d e : Bool)
    (cs : List TreeNode) : (TreeNode.mk p d e cs).children = cs := rfl

theorem TreeNode.eta : ∀ n : TreeNode,
    TreeNode.mk n.path n.isDirectory n.expanded n.children = n := by
  intro n; cases n; rfl

theorem TreeNode.beqList_nil_cons (c : TreeNode) (t : List TreeNode) :
    TreeNode.beqList [] (c :: t) = false := rfl

theorem TreeNode.beqList_cons_nil (c : TreeNode) (t : List TreeNode) :
    TreeNode.beqList (c :: t) [] = false := rfl

theorem TreeNode.beq_iff : ∀ a b : TreeNode, TreeNode.beq a b = true ↔ a = b := by
  have key : ∀ a : TreeNode, ∀ b : TreeNode, TreeNode.beq a b = true ↔ a = b := by
    intro a
    induction a using TreeNode.my_ind with
    | h p d e cs ih =>
      intro b
      cases b with
      | mk p2 d2 e2 cs2 =>
        show TreeNode.beq (TreeNode.mk p d e cs) (TreeNode.mk p2 d2 e2 cs2) =
          true ↔ _
        rw [TreeNode.beq]
        simp only [Bool.and_eq_true, decide_eq_true_eq, beq_iff_eq,
          TreeNode.mk.injEq]
        constructor
        · rintro ⟨⟨⟨h1, h2⟩, h3⟩, h4⟩
          refine ⟨h1, h2, h3, ?_⟩
          clear h1 h2 h3
          induction cs generalizing cs2 with
          | nil => cases cs2 with
            | nil => rfl
            | cons c2 t2 =>
              exact absurd h4 (by rw [TreeNode.beqList_nil_cons]; simp)
          | cons c t iht =>
            cases cs2 with
            | nil => exact absurd h4 (by rw [TreeNode.beqList_cons_nil]; simp)
            | cons c2 t2 =>
              rw [TreeNode.beqList, Bool.and_eq_true] at h4
              have hc := (ih c (by simp) c2).mp h4.1
              have ht := iht (fun x hx => ih x (by simp [hx])) t2 h4.2
              rw [hc, ht]
        · rintro ⟨h1, h2, h3, h4⟩
          refine ⟨⟨⟨h1, h2⟩, h3⟩, ?_⟩
          subst h4
          clear h1 h2 h3
          induction cs with
          | nil => rfl
          | cons c t iht =>
            rw [TreeNode.beqList, Bool.and_eq_true]
            exact ⟨(ih c (by simp) c).mpr rfl,
              iht (fun x hx => ih x (by simp [hx]))⟩
  exact key

theorem collectVisibleList_eq (cs : List TreeNode) :
    collectVisibleList cs = (cs.map collectVisibleNodes).flatten := by
  induction cs with
  | nil => rfl
  | cons c t ih => rw [collectVisibleList, ih]; simp

theorem collectVisibleNodes_eq (p : List String) (d e : Bool)
    (cs : List TreeNode) :
    collectVisibleNodes (TreeNode.mk p d e cs) =
      TreeNode.mk p d e cs ::
        (if e then (cs.map collectVisibleNodes).flatten else []) := by
  rw [collectVisibleNodes, collectVisibleList_eq]

theorem allNodesList_eq (cs : List TreeNode) :
    allNodesList cs = (cs.map allNodes).flatten := by
  induction cs with
  | nil => rfl
  | cons c t ih => rw [allNodesList, ih]; simp

theorem allNodes_eq (p : List String) (d e : Bool) (cs : List TreeNode) :
    allNodes (TreeNode.mk p d e cs) =
      TreeNode.mk p d e cs :: (cs.map allNodes).flatten := by
  rw [allNodes, allNodesList_eq]

theorem pruneList_eq (cs : List TreeNode) :
    pruneList cs = cs.map pruneCollapsed := by
  induction cs with
  | nil => rfl
  | cons c t ih => rw [pruneList, ih]; rfl

theorem collectExpandedList_eq (cs : List TreeNode) :
    collectExpandedList cs = (cs.map collectExpandedPaths).flatten := by
  induction cs with
  | nil => rfl
  | cons c t ih => rw [collectExpandedList, ih]; simp

theorem toggleListAtPath_eq (fs : Fs) (cs : List TreeNode) (p : List String) :
    toggleListAtPath fs cs p = cs.map (fun c => toggleAtPath fs c p) := by
  induction cs with
  | nil => rfl
  | cons c t ih => rw [toggleListAtPath, ih, List.map_cons]

/-! Subtree membership and visibility. -/

theorem Subnode.trans {r d m : TreeNode} (h1 : Subnode r d) (h2 : Subnode d m) :
    Subnode r m := by
  induction h2 with
  | refl => exact h1
  | child _ hc ih => exact Subnode.child ih hc

theorem sizeOf_lt_of_mem_children {c n : TreeNode} (h : c ∈ n.children) :
    sizeOf c < sizeOf n := by
  cases n with
  | mk p d e cs =>
    have hc : c ∈ cs := h
    have := List.sizeOf_lt_of_mem hc
    simp only [TreeNode.mk.sizeOf_spec]
    omega

theorem Subnode.sizeOf_le {r m : TreeNode} (h : Subnode r m) :
    sizeOf m ≤ sizeOf r := by
  induction h with
  | refl => exact le_refl _
  | child _ hc ih => exact le_trans (le_of_lt (sizeOf_lt_of_mem_children hc)) ih

theorem StrictSubnode.sizeOf_lt {r m : TreeNode} (h : StrictSubnode r m) :
    sizeOf m < sizeOf r := by
  rcases h with ⟨c, hc, hsub⟩
  exact lt_of_le_of_lt hsub.sizeOf_le (sizeOf_lt_of_mem_children hc)

theorem self_mem_allNodes (n : TreeNode) : n ∈ allNodes n := by
  cases n with
  | mk p d e cs => rw [allNodes_eq]; exact List.mem_cons_self _ _

theorem subnode_of_child_subnode {r c m : TreeNode} (hc : c ∈ r.children)
    (h : Subnode c m) : Subnode r m :=
  Subnode.trans (Subnode.child (Subnode.refl r) hc) h

theorem allNodes_closed_children :
    ∀ r : TreeNode, ∀ m ∈ allNodes r, ∀ c ∈ m.children, c ∈ allNodes r := by
  intro r
  induction r using TreeNode.my_ind with
  | h p d e cs ih =>
    intro m hm c hc
    rw [allNodes_eq] at hm ⊢
    rcases List.mem_cons.mp hm with rfl | hm
    · -- m is the root: its children are in their own subtrees
      refine List.mem_cons.mpr (Or.inr ?_)
      rw [List.mem_flatten]
      exact ⟨allNodes c, List.mem_map_of_mem _ hc, self_mem_allNodes c⟩
    · rw [List.mem_flatten] at hm
      rcases hm with ⟨l, hl, hml⟩
      rw [List.mem_map] at hl
      rcases hl with ⟨k, hk, rfl⟩
      refine List.mem_cons.mpr (Or.inr ?_)
      rw [List.mem_flatten]
      exact ⟨allNodes k, List.mem_map_of_mem _ hk, ih k hk m hml c hc⟩

theorem mem_allNodes_iff : ∀ r m : TreeNode, m ∈ allNodes r ↔ Subnode r m := by
  intro r
  have fwd : ∀ r : TreeNode, ∀ m ∈ allNodes r, Subnode r m := by
    intro r
    induction r using TreeNode.my_ind with
    | h p d e cs ih =>
      intro m hm
      rw [allNodes_eq] at hm
      rcases List.mem_cons.mp hm with rfl | hm
      · exact Subnode.refl _
      · rw [List.mem_flatten] at hm
        rcases hm with ⟨l, hl, hml⟩
        rw [List.mem_map] at hl
        rcases hl with ⟨k, hk, rfl⟩
        exact subnode_of_child_subnode (by simpa using hk) (ih k hk m hml)
  intro m
  constructor
  · exact fwd r m
  · intro h
    induction h with
    | refl => exact self_mem_allNodes _
    | child hsub hc ih => exact allNodes_closed_children _ _ ih _ hc

theorem collect_head (n : TreeNode) :
    (collectVisibleNodes n).head? = some n := by
  cases n with
  | mk p d e cs => rw [collectVisibleNodes_eq]; rfl

theorem self_mem_collect (n : TreeNode) : n ∈ collectVisibleNodes n := by
  cases n with
  | mk p d e cs => rw [collectVisibleNodes_eq]; exact List.mem_cons_self _ _

theorem collect_ne_nil (n : TreeNode) : collectVisibleNodes n ≠ [] := by
  cases n with
  | mk p d e cs => rw [collectVisibleNodes_eq]; exact List.cons_ne_nil _ _

theorem visible_lift {r c m : TreeNode} (hc : c ∈ r.children)
    (he : r.expanded = true) (h : Visible c m) : Visible r m := by
  induction h with
  | root => exact Visible.child Visible.root he hc
  | child _ hd hm ih => exact Visible.child ih hd hm

theorem collect_closed_children :
    ∀ r : TreeNode, ∀ m ∈ collectVisibleNodes r, m.expanded = true →
      ∀ c ∈ m.children, c ∈ collectVisibleNodes r := by
  intro r
  induction r using TreeNode.my_ind with
  | h p d e cs ih =>
    intro m hm hme c hc
    rw [collectVisibleNodes_eq] at hm ⊢
    rcases List.mem_cons.mp hm with rfl | hm
    · have he : e = true := hme
      subst he
      refine List.mem_cons.mpr (Or.inr ?_)
      simp only [if_true]
      rw [List.mem_flatten]
      exact ⟨collectVisibleNodes c, List.mem_map_of_mem _ hc,
        self_mem_collect c⟩
    · by_cases he : e = true
      · subst he
        simp only [if_true] at hm ⊢
        rw [List.mem_flatten] at hm
        rcases hm with ⟨l, hl, hml⟩
        rw [List.mem_map] at hl
        rcases hl with ⟨k, hk, rfl⟩
        refine List.mem_cons.mpr (Or.inr ?_)
        rw [List.mem_flatten]
        exact ⟨collectVisibleNodes k, List.mem_map_of_mem _ hk,
          ih k hk m hml hme c hc⟩
      · rw [Bool.not_eq_true] at he
        subst he
        simp at hm

theorem mem_collect_iff_visible :
    ∀ r m : TreeNode, m ∈ collectVisibleNodes r ↔ Visible r m := by
  have fwd : ∀ r : TreeNode, ∀ m ∈ collectVisibleNodes r, Visible r m := by
    intro r
    induction r using TreeNode.my_ind with
    | h p d e cs ih =>
      intro m hm
      rw [collectVisibleNodes_eq] at hm
      rcases List.mem_cons.mp hm with rfl | hm
      · exact Visible.root
      · by_cases he : e = true
        · subst he
          simp only [if_true] at hm
          rw [List.mem_flatten] at hm
          rcases hm with ⟨l, hl, hml⟩
          rw [List.mem_map] at hl
          rcases hl with ⟨k, hk, rfl⟩
          exact visible_lift (by simpa using hk) (by simp) (ih k hk m hml)
        · rw [Bool.not_eq_true] at he
          subst he
          simp at hm
      
  intro r m
  constructor
  · exact fwd r m
  · intro h
    induction h with
    | root => exact self_mem_collect _
    | child hsub he hm ih => exact collect_closed_children _ _ ih he _ hm

theorem visible_subnode {r m : TreeNode} (h : Visible r m) : Subnode r m := by
  induction h with
  | root => exact Subnode.refl _
  | child _ _ hm ih => exact Subnode.child ih hm

theorem flatten_sublist_flatten {α : Type} {cs : List TreeNode}
    {f g : TreeNode → List α} (h : ∀ c ∈ cs, List.Sublist (f c) (g c)) :
    List.Sublist (cs.map f).flatten (cs.map g).flatten := by
  induction cs with
  | nil => exact List.Sublist.refl _
  | cons c t ih =>
    simp only [List.map_cons, List.flatten_cons]
    exact List.Sublist.append (h c (by simp))
      (ih (fun x hx => h x (by simp [hx])))

theorem collect_sublist_allNodes :
    ∀ n : TreeNode, List.Sublist (collectVisibleNodes n) (allNodes n) := by
  intro n
  induction n using TreeNode.my_ind with
  | h p d e cs ih =>
    rw [collectVisibleNodes_eq, allNodes_eq]
    by_cases he : e = true
    · subst he
      simp only [if_true]
      exact List.Sublist.cons₂ _ (flatten_sublist_flatten ih)
    · rw [Bool.not_eq_true] at he
      subst he
      simp only [Bool.false_eq_true, if_false]
      exact List.Sublist.cons₂ _ (List.nil_sublist _)

/-! Well-formedness: distinct sibling names, child paths extending parent
paths, and the consequences used throughout. -/

theorem wfList_iff (p : List String) : ∀ cs : List TreeNode,
    wfList p cs = true ↔
      ∀ c ∈ cs, c.path ≠ [] ∧ c.path.dropLast = p ∧ wfNode c = true := by
  intro cs
  induction cs with
  | nil => simp [wfList]
  | cons c t ih =>
    rw [wfList]
    simp only [Bool.and_eq_true, decide_eq_true_eq, Bool.not_eq_true',
      List.isEmpty_eq_false, ih, List.mem_cons]
    constructor
    · rintro ⟨⟨⟨h1, h2⟩, h3⟩, h4⟩ x hx
      rcases hx with rfl | hx
      · exact ⟨h1, h2, h3⟩
      · exact h4 x hx
    · intro h
      refine ⟨⟨⟨(h c (Or.inl rfl)).1, (h c (Or.inl rfl)).2.1⟩,
        (h c (Or.inl rfl)).2.2⟩, fun x hx => h x (Or.inr hx)⟩

theorem wfNode_mk_iff (p : List String) (d e : Bool) (cs : List TreeNode) :
    wfNode (TreeNode.mk p d e cs) = true ↔
      (cs.map childName).Nodup ∧
        ∀ c ∈ cs, c.path ≠ [] ∧ c.path.dropLast = p ∧ wfNode c = true := by
  rw [wfNode]
  simp [wfList_iff, Bool.and_eq_true]

theorem wf_child {n c : TreeNode} (hw : wfNode n = true) (hc : c ∈ n.children) :
    wfNode c = true ∧ c.path ≠ [] ∧ c.path.dropLast = n.path := by
  cases n with
  | mk p d e cs =>
    rw [wfNode_mk_iff] at hw
    have h := hw.2 c hc
    exact ⟨h.2.2, h.1, h.2.1⟩

theorem wf_child_path {n c : TreeNode} (hw : wfNode n = true)
    (hc : c ∈ n.children) : c.path = n.path ++ [childName c] := by
  rcases wf_child hw hc with ⟨_, hne, hdrop⟩
  have h1 : c.path.dropLast ++ [c.path.getLast hne] = c.path :=
    List.dropLast_concat_getLast hne
  have h2 : childName c = c.path.getLast hne := by
    rw [childName, List.getLastD_eq_getLast?, List.getLast?_eq_getLast _ hne]
    rfl
  rw [h2, ← hdrop, h1]

theorem wf_sub {r m : TreeNode} (hw : wfNode r = true) (h : Subnode r m) :
    wfNode m = true := by
  induction h with
  | refl => exact hw
  | child _ hc ih => exact (wf_child ih hc).1

theorem path_prefix_of_subnode {r m : TreeNode} (hw : wfNode r = true)
    (h : Subnode r m) : List.IsPrefix r.path m.path := by
  induction h with
  | refl => exact List.prefix_refl _
  | child hsub hc ih =>
    have hwd := wf_sub hw hsub
    have := wf_child_path hwd hc
    rw [this]
    exact List.IsPrefix.trans ih (List.prefix_append _ _)

theorem path_length_lt_of_strict {r m : TreeNode} (hw : wfNode r = true)
    (h : StrictSubnode r m) : r.path.length < m.path.length := by
  rcases h with ⟨c, hc, hsub⟩
  have hcp := wf_child_path hw hc
  have hpre := path_prefix_of_subnode (wf_child hw hc).1 hsub
  have h1 := hpre.length_le
  rw [hcp] at h1
  simp only [List.length_append, List.length_cons, List.length_nil] at h1
  omega

theorem mem_paths_iff {r : TreeNode} {q : List String} :
    q ∈ (allNodes r).map TreeNode.path ↔ ∃ m, Subnode r m ∧ m.path = q := by
  rw [List.mem_map]
  constructor
  · rintro ⟨m, hm, rfl⟩
    exact ⟨m, (mem_allNodes_iff r m).mp hm, rfl⟩
  · rintro ⟨m, hm, rfl⟩
    exact ⟨m, (mem_allNodes_iff r m).mpr hm, rfl⟩

theorem subtree_paths_extend {c : TreeNode} (hw : wfNode c = true)
    {q : List String} (hq : q ∈ (allNodes c).map TreeNode.path) :
    List.IsPrefix c.path q := by
  rw [mem_paths_iff] at hq
  rcases hq with ⟨m, hm, rfl⟩
  exact path_prefix_of_subnode hw hm

theorem wf_nodupPaths : ∀ r : TreeNode, wfNode r = true → NodupPaths r := by
  intro r
  induction r using TreeNode.my_ind with
  | h p d e cs ih =>
    intro hw
    have hw' := hw
    rw [wfNode_mk_iff] at hw'
    rcases hw' with ⟨hnames, hkids⟩
    rw [NodupPaths, allNodes_eq, List.map_cons, List.map_flatten, List.map_map]
    rw [List.nodup_cons]
    constructor
    · -- the root path is shorter than every path below it
      intro hp
      rw [List.mem_flatten] at hp
      rcases hp with ⟨l, hl, hpl⟩
      rw [List.mem_map] at hl
      rcases hl with ⟨c, hc, rfl⟩
      have hwc := (hkids c hc).2.2
      have hpre : List.IsPrefix c.path p := subtree_paths_extend hwc hpl
      have hcp : c.path = p ++ [childName c] := by
        have := wf_child_path (n := TreeNode.mk p d e cs) hw hc
        simpa using this
      have := hpre.length_le
      rw [hcp] at this
      simp only [List.length_append, List.length_cons, List.length_nil] at this
      omega
    · rw [List.nodup_flatten]
      constructor
      · intro l hl
        rw [List.mem_map] at hl
        rcases hl with ⟨c, hc, rfl⟩
        exact ih c hc (hkids c hc).2.2
      · rw [List.pairwise_map]
        have hnames' : List.Pairwise (fun c1 c2 => childName c1 ≠ childName c2) cs := by
          rw [← List.pairwise_map]
          exact hnames
        refine List.Pairwise.imp_of_mem ?_ hnames'
        intro c1 c2 hm1 hm2 hne
        intro q hq1 hq2
        have hw1 := (hkids c1 hm1).2.2
        have hw2 := (hkids c2 hm2).2.2
        have hp1 : List.IsPrefix c1.path q := subtree_paths_extend hw1 hq1
        have hp2 : List.IsPrefix c2.path q := subtree_paths_extend hw2 hq2
        have hc1 : c1.path = p ++ [childName c1] := by
          simpa using wf_child_path (n := TreeNode.mk p d e cs) hw hm1
        have hc2 : c2.path = p ++ [childName c2] := by
          simpa using wf_child_path (n := TreeNode.mk p d e cs) hw hm2
        have hlen : c1.path.length = c2.path.length := by
          rw [hc1, hc2]; simp
        have heq : c1.path = c2.path := by
          have hpre := List.prefix_of_prefix_length_le hp1 hp2 (le_of_eq hlen)
          exact hpre.eq_of_length_le (le_of_eq hlen.symm)
        rw [hc1, hc2] at heq
        exact hne (by simpa using heq)

theorem path_inj {r a b : TreeNode} (h : NodupPaths r) (ha : Subnode r a)
    (hb : Subnode r b) (hpath : a.path = b.path) : a = b :=
  List.inj_on_of_nodup_map h ((mem_allNodes_iff r a).mpr ha)
    ((mem_allNodes_iff r b).mpr hb) hpath

theorem parent_unique {r a b m : TreeNode} (hw : wfNode r = true)
    (ha : Subnode r a) (hb : Subnode r b) (hma : m ∈ a.children)
    (hmb : m ∈ b.children) : a = b := by
  have hpa : m.path.dropLast = a.path := (wf_child (wf_sub hw ha) hma).2.2
  have hpb : m.path.dropLast = b.path := (wf_child (wf_sub hw hb) hmb).2.2
  exact path_inj (wf_nodupPaths r hw) ha hb (by rw [← hpa, ← hpb])

/-! Ancestor expansion, uniqueness of visible occurrences. -/

theorem parent_of_visible {r m : TreeNode} (h : Visible r m) (hne : m ≠ r) :
    ∃ e, Visible r e ∧ e.expanded = true ∧ m ∈ e.children := by
  cases h with
  | root => exact absurd rfl hne
  | child hd he hm => exact ⟨_, hd, he, hm⟩

theorem strict_parent {d m : TreeNode} (h : StrictSubnode d m) :
    ∃ e, Subnode d e ∧ m ∈ e.children := by
  rcases h with ⟨c, hc, hsub⟩
  cases hsub with
  | refl => exact ⟨d, Subnode.refl d, hc⟩
  | child hsub2 hm2 => exact ⟨_, subnode_of_child_subnode hc hsub2, hm2⟩

theorem subnode_eq_or_strict {a b : TreeNode} (h : Subnode a b) :
    a = b ∨ StrictSubnode a b := by
  induction h with
  | refl => left; rfl
  | child hsub hc ih =>
    rcases ih with rfl | hstrict
    · right; exact ⟨_, hc, Subnode.refl _⟩
    · rcases hstrict with ⟨k, hk, hsub2⟩
      right; exact ⟨k, hk, Subnode.child hsub2 hc⟩

theorem ancestors_expanded {r : TreeNode} (hw : wfNode r = true) :
    ∀ m, Visible r m → ∀ d, Subnode r d → StrictSubnode d m →
      d.expanded = true := by
  intro m hm
  induction hm with
  | root =>
    intro d hd hstrict
    have h1 := hstrict.sizeOf_lt
    have h2 := hd.sizeOf_le
    omega
  | child hvis he hmem ih =>
    intro d hd hstrict
    rcases strict_parent hstrict with ⟨e1, hde1, hme1⟩
    have hre1 : Subnode r e1 := Subnode.trans hd hde1
    have heq := parent_unique hw hre1 (visible_subnode hvis) hme1 hmem
    subst heq
    rcases subnode_eq_or_strict hde1 with rfl | hstrict2
    · exact he
    · exact ih d hd hstrict2

theorem not_visible_in_collapsed {r d m : TreeNode} (hw : wfNode r = true)
    (hd : Subnode r d) (hcol : d.expanded = false) (hstrict : StrictSubnode d m) :
    m ∉ collectVisibleNodes r := by
  intro hmem
  have hvis := (mem_collect_iff_visible r m).mp hmem
  have := ancestors_expanded hw m hvis d hd hstrict
  rw [this] at hcol
  exact Bool.noConfusion hcol

theorem visible_paths_nodup {r : TreeNode} (hnd : NodupPaths r) :
    ((collectVisibleNodes r).map TreeNode.path).Nodup :=
  List.Nodup.sublist ((collect_sublist_allNodes r).map TreeNode.path) hnd

theorem collect_render_eq_prune :
    ∀ n : TreeNode,
      (collectVisibleNodes n).map renderInfo =
        (allNodes (pruneCollapsed n)).map renderInfo := by
  intro n
  induction n using TreeNode.my_ind with
  | h p d e cs ih =>
    rw [collectVisibleNodes_eq, pruneCollapsed, pruneList_eq, allNodes_eq]
    by_cases he : e = true
    · subst he
      simp only [if_true, List.map_cons, List.map_flatten, List.map_map]
      congr 1
      congr 1
      exact List.map_congr_left (fun c hc => by
        simpa [Function.comp] using ih c hc)
    · rw [Bool.not_eq_true] at he
      subst he
      simp [Bool.false_eq_true, if_false, allNodesList, renderInfo]

/-! Loading lemmas. -/

theorem loadChildren_unloaded {fs : Fs} {n : TreeNode}
    (hdir : n.isDirectory = true) (hempty : n.children = []) :
    loadChildren fs n =
      TreeNode.mk n.path n.isDirectory n.expanded
        ((admittedNames fs n.path).map (freshChild fs.isDir n.path)) := by
  rw [loadChildren, if_neg]
  simp [hdir, hempty]

theorem loadChildren_noop_of_nonempty {fs : Fs} {n : TreeNode}
    (h : n.children ≠ []) : loadChildren fs n = n := by
  rw [loadChildren, if_pos]
  simp [h]

theorem loadChildren_noop_of_file {fs : Fs} {n : TreeNode}
    (h : n.isDirectory = false) : loadChildren fs n = n := by
  rw [loadChildren, if_pos]
  simp [h]

theorem loadChildren_idem (fs : Fs) (n : TreeNode) :
    loadChildren fs (loadChildren fs n) = loadChildren fs n := by
  by_cases hd : n.isDirectory = true
  · by_cases hc : n.children = []
    · rw [loadChildren_unloaded hd hc]
      by_cases hadm :
          (admittedNames fs n.path).map (freshChild fs.isDir n.path) = []
      · rw [hadm]
        rw [loadChildren_unloaded (by simp [hd]) (by simp)]
        simp [hadm]
      · exact loadChildren_noop_of_nonempty (by simpa using hadm)
    · rw [loadChildren_noop_of_nonempty hc, loadChildren_noop_of_nonempty hc]
  · rw [Bool.not_eq_true] at hd
    rw [loadChildren_noop_of_file hd, loadChildren_noop_of_file hd]

theorem childName_freshChild (isDir : List String → Bool) (p : List String)
    (x : String) : childName (freshChild isDir p x) = x := by
  rw [childName, freshChild]
  simp

theorem loadChildren_childNames {fs : Fs} {n : TreeNode}
    (hdir : n.isDirectory = true) (hempty : n.children = []) :
    (loadChildren fs n).children.map childName = admittedNames fs n.path := by
  rw [loadChildren_unloaded hdir hempty]
  rw [TreeNode.children_mk, List.map_map]
  rw [show childName ∘ freshChild fs.isDir n.path = id from ?_, List.map_id]
  funext x
  simp [Function.comp, childName_freshChild]

theorem admittedNames_sorted (fs : Fs) (p : List String) :
    List.Sorted (fun a b => nameLe a b = true) (admittedNames fs p) := by
  rw [admittedNames]
  cases h : fs.listDir p with
  | none => exact List.sorted_nil
  | some ns => exact (sortNames_sorted ns).filter _

theorem admittedNames_nodup {fs : Fs} (hok : FsOk fs) (p : List String) :
    (admittedNames fs p).Nodup := by
  rw [admittedNames]
  cases h : fs.listDir p with
  | none => exact List.nodup_nil
  | some ns =>
    exact List.Nodup.filter _ ((sortNames_perm ns).nodup_iff.mpr (hok p ns h))

/-- C1: the visible-sequence flattening renders exactly the depth-first
pre-order walk of the tree with every collapsed node's subtree pruned, its
membership is exactly the spec's visibility relation (root plus children of
visible expanded nodes), each visible node contributes exactly one element
(distinct paths), and nothing inside a collapsed directory's subtree is ever
emitted.  The hypothesis `wfNode` — child paths extend the parent's path,
sibling names distinct — holds for every tree the viewer builds. -/
theorem c1_visible_flattening (r : TreeNode) (hw : wfNode r = true) :
    (collectVisibleNodes r).map renderInfo =
        (allNodes (pruneCollapsed r)).map renderInfo
      ∧ (∀ m, m ∈ collectVisibleNodes r ↔ Visible r m)
      ∧ ((collectVisibleNodes r).map TreeNode.path).Nodup
      ∧ (∀ d m, Subnode r d → d.expanded = false → StrictSubnode d m →
          m ∉ collectVisibleNodes r) := by
  refine ⟨collect_render_eq_prune r, fun m => mem_collect_iff_visible r m,
    visible_paths_nodup (wf_nodupPaths r hw), ?_⟩
  intro d m hd hcol hstrict
  exact not_visible_in_collapsed hw hd hcol hstrict

/-- Witness for C1 at a concrete tree with an expanded root, a collapsed
directory and a file. -/
theorem c1_visible_flattening_witness :
    wfNode tC1 = true ∧
      ((collectVisibleNodes tC1).map renderInfo =
          (allNodes (pruneCollapsed tC1)).map renderInfo
        ∧ (∀ m, m ∈ collectVisibleNodes tC1 ↔ Visible tC1 m)
        ∧ ((collectVisibleNodes tC1).map TreeNode.path).Nodup
        ∧ (∀ d m, Subnode tC1 d → d.expanded = false → StrictSubnode d m →
            m ∉ collectVisibleNodes tC1)) :=
  ⟨rfl, c1_visible_flattening tC1 rfl⟩

/-- C6: after a load of an unloaded directory the stored children are sorted
by name (with no duplicates when the filesystem lists distinct names), a node
with populated children is not reloaded, and loading is idempotent. -/
theorem c6_sorted_idempotent (fs : Fs) (n : TreeNode) :
    (n.children = [] →
        List.Sorted (fun a b => nameLe a b = true)
          ((loadChildren fs n).children.map childName))
      ∧ (FsOk fs → n.children = [] →
          ((loadChildren fs n).children.map childName).Nodup)
      ∧ (n.children ≠ [] → loadChildren fs n = n)
      ∧ loadChildren fs (loadChildren fs n) = loadChildren fs n := by
  refine ⟨?_, ?_, fun h => loadChildren_noop_of_nonempty h,
    loadChildren_idem fs n⟩
  · intro hempty
    by_cases hd : n.isDirectory = true
    · rw [loadChildren_childNames hd hempty]
      exact admittedNames_sorted fs n.path
    · rw [Bool.not_eq_true] at hd
      rw [loadChildren_noop_of_file hd, hempty]
      exact List.sorted_nil
  · intro hok hempty
    by_cases hd : n.isDirectory = true
    · rw [loadChildren_childNames hd hempty]
      exact admittedNames_nodup hok n.path
    · rw [Bool.not_eq_true] at hd
      rw [loadChildren_noop_of_file hd, hempty]
      exact List.nodup_nil

/-- Witness for C6 at the test-fixture filesystem: loading `t/src` stores
`docs`, `main.py`, `my_lib` in sorted order and reloading changes nothing. -/
theorem c6_sorted_idempotent_witness :
    ((TreeNode.mk ["t", "src"] true false [] : TreeNode).children = [] →
        List.Sorted (fun a b => nameLe a b = true)
          ((loadChildren fsSrc (TreeNode.mk ["t", "src"] true false
            [])).children.map childName))
      ∧ (FsOk fsSrc → (TreeNode.mk ["t", "src"] true false
            [] : TreeNode).children = [] →
          ((loadChildren fsSrc (TreeNode.mk ["t", "src"] true false
            [])).children.map childName).Nodup)
      ∧ ((TreeNode.mk ["t", "src"] true false [] : TreeNode).children ≠ [] →
          loadChildren fsSrc (TreeNode.mk ["t", "src"] true false []) =
            TreeNode.mk ["t", "src"] true false [])
      ∧ loadChildren fsSrc
            (loadChildren fsSrc (TreeNode.mk ["t", "src"] true false [])) =
          loadChildren fsSrc (TreeNode.mk ["t", "src"] true false []) :=
  c6_sorted_idempotent fsSrc (TreeNode.mk ["t", "src"] true false [])

/-- Counterexample to C7 as stated: a non-permission enumeration failure is
not swallowed — `load_children` has a handler only for `PermissionError`, so
the error propagates to the caller instead of leaving the node looking like
an empty directory. -/
theorem c7_counterexample :
    loadChildrenE fsOtherE (TreeNode.mk ["r"] true false []) =
      Except.error FsErr.other := rfl

/-- C7 amended: a permission-denied enumeration failure is swallowed, leaving
the children empty — indistinguishable from an empty directory, which
produces the same result — while any other enumeration failure propagates to
the caller. -/
theorem c7_amended (fs : FsE) (n : TreeNode) (hdir : n.isDirectory = true)
    (hempty : n.children = []) :
    ((fs.listDir n.path = .error .permission ∨ fs.listDir n.path = .ok []) →
        loadChildrenE fs n = .ok n)
      ∧ (fs.listDir n.path = .error .other →
          loadChildrenE fs n = .error .other) := by
  constructor
  · intro h
    rw [loadChildrenE, if_neg (by simp [hdir, hempty])]
    rcases h with h | h
    · rw [h]
    · rw [h]
      have : n = TreeNode.mk n.path n.isDirectory n.expanded [] := by
        rw [← hempty, TreeNode.eta]
      rw [this]
      simp [sortNames, List.insertionSort]
  · intro h
    rw [loadChildrenE, if_neg (by simp [hdir, hempty]), h]

/-- Witness for C7 amended at the all-permission-denied oracle. -/
theorem c7_amended_witness :
    ((fsPermE.listDir ["r"] = .error .permission ∨
          fsPermE.listDir ["r"] = .ok []) →
        loadChildrenE fsPermE (TreeNode.mk ["r"] true false []) =
          .ok (TreeNode.mk ["r"] true false []))
      ∧ (fsPermE.listDir ["r"] = .error .other →
          loadChildrenE fsPermE (TreeNode.mk ["r"] true false []) =
            .error .other) :=
  c7_amended fsPermE (TreeNode.mk ["r"] true false []) rfl rfl

/-! Initial state and collapsed-children flattening. -/

theorem collect_flatten_of_collapsed {cs : List TreeNode}
    (h : ∀ c ∈ cs, c.expanded = false) :
    (cs.map collectVisibleNodes).flatten = cs := by
  induction cs with
  | nil => rfl
  | cons c t ih =>
    rw [List.map_cons, List.flatten_cons, ih (fun x hx => h x (by simp [hx]))]
    have hc : collectVisibleNodes c = [c] := by
      cases c with
      | mk p d e k =>
        have he : (TreeNode.mk p d e k).expanded = false :=
          h (TreeNode.mk p d e k) (by simp)
        rw [TreeNode.expanded_mk] at he
        subst he
        rw [collectVisibleNodes_eq]
        simp
    rw [hc]
    rfl

theorem initRootNode_children_collapsed (fs : Fs) (p : List String) :
    ∀ c ∈ (initRootNode fs p).children, c.expanded = false := by
  intro c hc
  rw [initRootNode] at hc
  by_cases hd : fs.isDir p = true
  · rw [@loadChildren_unloaded fs (TreeNode.mk p (fs.isDir p) true [])
      (by simp [hd]) rfl] at hc
    rw [TreeNode.children_mk, List.mem_map] at hc
    rcases hc with ⟨x, _, rfl⟩
    rfl
  · rw [Bool.not_eq_true] at hd
    rw [loadChildren_noop_of_file (by simp [hd])] at hc
    simp at hc

theorem initRootNode_expanded (fs : Fs) (p : List String) :
    (initRootNode fs p).expanded = true := by
  rw [initRootNode]
  by_cases hd : fs.isDir p = true
  · rw [@loadChildren_unloaded fs (TreeNode.mk p (fs.isDir p) true [])
      (by simp [hd]) rfl]; rfl
  · rw [Bool.not_eq_true] at hd
    rw [loadChildren_noop_of_file (by simp [hd])]; rfl

theorem initRootNode_path (fs : Fs) (p : List String) :
    (initRootNode fs p).path = p := by
  rw [initRootNode]
  by_cases hd : fs.isDir p = true
  · rw [@loadChildren_unloaded fs (TreeNode.mk p (fs.isDir p) true [])
      (by simp [hd]) rfl]; rfl
  · rw [Bool.not_eq_true] at hd
    rw [loadChildren_noop_of_file (by simp [hd])]; rfl

theorem collect_initRoot (fs : Fs) (p : List String) :
    collectVisibleNodes (initRootNode fs p) =
      initRootNode fs p :: (initRootNode fs p).children := by
  have hcol := initRootNode_children_collapsed fs p
  have hexp := initRootNode_expanded fs p
  cases hr : initRootNode fs p with
  | mk q d e cs =>
    rw [hr] at hcol hexp
    have he : e = true := hexp
    subst he
    rw [collectVisibleNodes_eq]
    simp only [if_true, TreeNode.children_mk]
    congr 1
    exact collect_flatten_of_collapsed (fun c hc => hcol c hc)

theorem updateDisplay_of_zero {s : ViewerState} (h : s.selectedIndex = 0)
    (hne : collectVisibleNodes s.root ≠ []) :
    updateDisplay s =
      { s with
          visibleNodes := collectVisibleNodes s.root
          selectedIndex := 0 } := by
  rw [updateDisplay]
  have hlen : 0 < (collectVisibleNodes s.root).length :=
    List.length_pos.mpr hne
  have h1 : ¬(s.selectedIndex ≥ ((collectVisibleNodes s.root).length : Int)) := by
    rw [h]; omega
  rw [if_neg h1, h]
  norm_num

/-- C9 counterexample: on a root directory with one entry, the state right
after construction shows the root and its child — two lines — not the root
alone. -/
theorem c9_counterexample :
    (initState fsSrc ["t"]).visibleNodes.map TreeNode.path =
        [["t"], ["t", "src"]]
      ∧ (initState fsSrc ["t"]).visibleNodes.map TreeNode.path ≠ [["t"]] :=
  ⟨rfl, by decide⟩

/-- C9 amended: immediately after construction the selection index is 0 and
the visible sequence is the root — created expanded with its children loaded —
followed by its immediate admitted children (so it is the root alone exactly
when the root directory shows no entries). -/
theorem c9_amended (fs : Fs) (p : List String) :
    (initState fs p).selectedIndex = 0
      ∧ (initState fs p).root = initRootNode fs p
      ∧ (initRootNode fs p).expanded = true
      ∧ (initState fs p).visibleNodes =
          initRootNode fs p :: (initRootNode fs p).children := by
  have hne : collectVisibleNodes (initViewer fs p).root ≠ [] :=
    collect_ne_nil _
  have hupd := updateDisplay_of_zero (s := initViewer fs p) rfl hne
  rw [initState, hupd]
  refine ⟨rfl, rfl, initRootNode_expanded fs p, ?_⟩
  show collectVisibleNodes (initViewer fs p).root = _
  rw [show (initViewer fs p).root = initRootNode fs p from rfl]
  exact collect_initRoot fs p

/-- C8: evidence for the defect in `main` (navl.py line 18).  The source
tests the truthiness of the attribute `root_path.exists` without calling it;
the bound-method object is always truthy, so the rejection branch is dead:
for a root path that does not exist, the check still passes and the viewer is
constructed — with a non-directory root node — instead of failing with the
path-not-found error the spec requires. -/
theorem c8_missing_root_not_rejected :
    fsMissing.pathExists ["missing"] = false
      ∧ mainRejectsRootPath fsMissing ["missing"] = false
      ∧ initState fsMissing ["missing"] =
          { rootPath := ["missing"]
            root := TreeNode.mk ["missing"] false true []
            selectedIndex := 0
            visibleNodes := [TreeNode.mk ["missing"] false true []] } :=
  ⟨rfl, rfl, rfl⟩

/-- C5 (modelled from the spec; the ignore-aware `TreeNode` the tests
exercise is missing from the sources under src): admitted children inherit
the parent's matcher unchanged; every admitted name is either the
ignore-definition file itself or both non-hidden and unmatched; hidden names
and matched names (other than the ignore file) are excluded; and the ignore
file is retained whenever the directory lists it. -/
theorem c5_ignore_filtering (fs : Fs) (ign : Option IgnoreMatcher)
    (p : List String) :
    (∀ c ∈ loadChildrenIgnore fs ign p, c.2 = ign)
      ∧ (∀ x ∈ admittedNamesIgnore fs ign p,
          x = ignoreFileName ∨
            (isHidden x = false ∧ matchesOpt ign (p ++ [x]) = false))
      ∧ (∀ ns, fs.listDir p = some ns → ∀ x ∈ ns, isHidden x = true →
          x ≠ ignoreFileName → x ∉ admittedNamesIgnore fs ign p)
      ∧ (∀ ns, fs.listDir p = some ns → ∀ x ∈ ns,
          matchesOpt ign (p ++ [x]) = true → x ≠ ignoreFileName →
            x ∉ admittedNamesIgnore fs ign p)
      ∧ (∀ ns, fs.listDir p = some ns → ignoreFileName ∈ ns →
          ignoreFileName ∈ admittedNamesIgnore fs ign p) := by
  refine ⟨?_, ?_, ?_, ?_, ?_⟩
  · intro c hc
    rw [loadChildrenIgnore, List.mem_map] at hc
    rcases hc with ⟨x, _, rfl⟩
    rfl
  · intro x hx
    rw [admittedNamesIgnore] at hx
    cases h : fs.listDir p with
    | none => rw [h] at hx; simp at hx
    | some ns =>
      rw [h, List.mem_filter] at hx
      rcases hx with ⟨_, hpred⟩
      simp only [Bool.or_eq_true, decide_eq_true_eq, Bool.and_eq_true,
        Bool.not_eq_true'] at hpred
      exact hpred
  · intro ns h x hxns hhid hne
    rw [admittedNamesIgnore, h]
    intro hmem
    rw [List.mem_filter] at hmem
    rcases hmem with ⟨_, hpred⟩
    simp only [Bool.or_eq_true, decide_eq_true_eq, Bool.and_eq_true,
      Bool.not_eq_true'] at hpred
    rcases hpred with h1 | ⟨h1, _⟩
    · exact hne h1
    · rw [hhid] at h1; exact Bool.noConfusion h1
  · intro ns h x hxns hmatch hne
    rw [admittedNamesIgnore, h]
    intro hmem
    rw [List.mem_filter] at hmem
    rcases hmem with ⟨_, hpred⟩
    simp only [Bool.or_eq_true, decide_eq_true_eq, Bool.and_eq_true,
      Bool.not_eq_true'] at hpred
    rcases hpred with h1 | ⟨_, h1⟩
    · exact hne h1
    · rw [hmatch] at h1; exact Bool.noConfusion h1
  · intro ns h hmem
    rw [admittedNamesIgnore, h]
    rw [List.mem_filter]
    refine ⟨(sortNames_perm ns).mem_iff.mpr hmem, ?_⟩
    simp

/-- Witness for C5 at the repository's own test fixture: `main.py` is
ignore-matched and excluded, `.gitignore` itself is retained, and every
created child inherits the same matcher. -/
theorem c5_ignore_filtering_witness :
    ignoreFileName ∈ admittedNamesIgnore fsGit (some gMatcher) ["t", "src"]
      ∧ ("main.py" ∉ admittedNamesIgnore fsGit (some gMatcher) ["t", "src"])
      ∧ admittedNamesIgnore fsGit (some gMatcher) ["t", "src"] =
          [".gitignore", "docs", "my_lib"] := by
  have h := c5_ignore_filtering fsGit (some gMatcher) ["t", "src"]
  refine ⟨h.2.2.2.2 [".gitignore", "main.py", "docs", "my_lib"] rfl
      (by decide), ?_, rfl⟩
  exact h.2.2.2.1 [".gitignore", "main.py", "docs", "my_lib"] rfl
    ("main.py") (by decide) (by decide) (by decide)

/-! Refresh and restoration. -/

theorem loadChildren_path (fs : Fs) (n : TreeNode) :
    (loadChildren fs n).path = n.path := by
  rw [loadChildren]
  split
  · rfl
  · rw [TreeNode.path_mk]

theorem loadChildren_isDir (fs : Fs) (n : TreeNode) :
    (loadChildren fs n).isDirectory = n.isDirectory := by
  rw [loadChildren]
  split
  · rfl
  · rw [TreeNode.isDirectory_mk]

theorem restoreFuel_path (fs : Fs) (S : List (List String)) (fuel : Nat)
    (n : TreeNode) : (restoreFuel fs S fuel n).path = n.path := by
  cases fuel with
  | zero => rfl
  | succ f =>
    rw [restoreFuel]
    split
    · rw [TreeNode.path_mk, loadChildren_path, TreeNode.path_mk]
    · rfl

theorem restoreFuel_isDir (fs : Fs) (S : List (List String)) (fuel : Nat)
    (n : TreeNode) :
    (restoreFuel fs S fuel n).isDirectory = n.isDirectory := by
  cases fuel with
  | zero => rfl
  | succ f =>
    rw [restoreFuel]
    split
    · rw [TreeNode.isDirectory_mk, loadChildren_isDir, TreeNode.isDirectory_mk]
    · rfl

theorem subnode_of_childless {c m : TreeNode} (h : c.children = [])
    (hs : Subnode c m) : m = c := by
  induction hs with
  | refl => rfl
  | child hsub hm ih =>
    rw [ih, h] at hm
    exact absurd hm (List.not_mem_nil _)

theorem strict_of_childless {c m : TreeNode} (h : c.children = []) :
    ¬StrictSubnode c m := by
  rintro ⟨k, hk, _⟩
  rw [h] at hk
  exact List.not_mem_nil _ hk

theorem filter_length_mono {α : Type} {p r : α → Bool} (l : List α)
    (himp : ∀ b ∈ l, p b = true → r b = true) :
    (l.filter p).length ≤ (l.filter r).length := by
  rw [← List.countP_eq_length_filter, ← List.countP_eq_length_filter]
  exact List.countP_mono_left himp

theorem filter_length_lt {α : Type} {p r : α → Bool} :
    ∀ (l : List α) (a : α), a ∈ l → r a = true → p a = false →
      (∀ b ∈ l, p b = true → r b = true) →
      (l.filter p).length < (l.filter r).length := by
  intro l
  induction l with
  | nil => intro a ha; cases ha
  | cons h t ih =>
    intro a ha hra hpa himp
    rcases List.mem_cons.mp ha with rfl | ha2
    · simp only [List.filter_cons, hpa, hra, if_true, Bool.false_eq_true,
        if_false, List.length_cons]
      have := filter_length_mono t (fun b hb => himp b (by simp [hb]))
      omega
    · have hstep := ih a ha2 hra hpa (fun b hb => himp b (by simp [hb]))
      cases hp : p h
      · simp only [List.filter_cons, hp, Bool.false_eq_true, if_false]
        cases hr : r h
        · simp only [hr, Bool.false_eq_true, if_false]
          exact hstep
        · simp only [hr, if_true, List.length_cons]
          omega
      · have hr := himp h (by simp) hp
        simp only [List.filter_cons, hp, hr, if_true, List.length_cons]
        omega

theorem prefix_filter_extend_lt {S : List (List String)} {q : List String}
    (hq : q ∈ S) (x : String) :
    (S.filter (fun z => (q ++ [x]).isPrefixOf z)).length <
      (S.filter (fun z => q.isPrefixOf z)).length := by
  refine filter_length_lt S q hq ?_ ?_ ?_
  · simp [List.isPrefixOf_iff_prefix]
  · rw [Bool.eq_false_iff]
    intro hpre
    rw [List.isPrefixOf_iff_prefix] at hpre
    have := hpre.length_le
    simp at this
  · intro b hb hpb
    rw [List.isPrefixOf_iff_prefix] at hpb ⊢
    exact (List.prefix_append q [x]).trans hpb

theorem loadChildren_fresh (fs : Fs) (q : List String) (δ e : Bool) :
    loadChildren fs (TreeNode.mk q δ e []) =
      TreeNode.mk q δ e (if δ = true then freshChildren fs q else []) := by
  by_cases hd : δ = true
  · subst hd
    rw [@loadChildren_unloaded fs (TreeNode.mk q true e []) rfl rfl]
    simp [freshChildren]
  · rw [Bool.not_eq_true] at hd
    subst hd
    rw [@loadChildren_noop_of_file fs (TreeNode.mk q false e []) rfl]
    simp

theorem initRootNode_eq (fs : Fs) (p : List String) :
    initRootNode fs p =
      TreeNode.mk p (fs.isDir p) true
        (if fs.isDir p = true then freshChildren fs p else []) := by
  rw [initRootNode, loadChildren_fresh]

theorem loadChildren_initRoot (fs : Fs) (p : List String) :
    loadChildren fs (initRootNode fs p) = initRootNode fs p := by
  rw [initRootNode]
  exact loadChildren_idem fs (TreeNode.mk p (fs.isDir p) true [])

theorem restoreFuel_initRoot_mem (fs : Fs) (S : List (List String))
    (p : List String) (f : Nat) (hp : p ∈ S) :
    restoreFuel fs S (f + 1) (initRootNode fs p) =
      TreeNode.mk p (fs.isDir p) true
        ((initRootNode fs p).children.map (restoreFuel fs S f)) := by
  conv_lhs => rw [initRootNode_eq]
  simp only [restoreFuel, TreeNode.path_mk, TreeNode.isDirectory_mk,
    TreeNode.children_mk]
  rw [if_pos hp]
  rw [show TreeNode.mk p (fs.isDir p) true
      (if fs.isDir p = true then freshChildren fs p else []) =
      initRootNode fs p from (initRootNode_eq fs p).symm]
  rw [loadChildren_initRoot]
  conv_lhs => rw [initRootNode_eq]
  conv_rhs => rw [initRootNode_eq]
  simp only [TreeNode.path_mk, TreeNode.isDirectory_mk, TreeNode.expanded_mk,
    TreeNode.children_mk]

theorem restoreFuel_initRoot_notmem (fs : Fs) (S : List (List String))
    (p : List String) (f : Nat) (hp : p ∉ S) :
    restoreFuel fs S (f + 1) (initRootNode fs p) = initRootNode fs p := by
  rw [restoreFuel, if_neg]
  rw [initRootNode_path]
  exact hp

theorem restoreFuel_fresh_restored (fs : Fs) (S : List (List String)) :
    ∀ fuel (q : List String),
      (S.filter (fun z => q.isPrefixOf z)).length < fuel →
      RestoredFresh fs S
        (restoreFuel fs S fuel (TreeNode.mk q (fs.isDir q) false [])) := by
  intro fuel
  induction fuel with
  | zero => intro q h; exact absurd h (by omega)
  | succ f ih =>
    intro q h
    by_cases hq : q ∈ S
    · simp only [restoreFuel, TreeNode.path_mk, TreeNode.isDirectory_mk,
        TreeNode.children_mk]
      rw [if_pos hq]
      rw [loadChildren_fresh]
      simp only [TreeNode.path_mk, TreeNode.isDirectory_mk,
        TreeNode.expanded_mk, TreeNode.children_mk]
      refine RestoredFresh.load hq ?_ ?_ ?_
      · rw [List.map_map, loadedChildPaths]
        by_cases hd : fs.isDir q = true
        · rw [if_pos hd, if_pos hd, freshChildren, List.map_map]
          refine List.map_congr_left ?_
          intro x hx
          simp [Function.comp, restoreFuel_path, freshChild]
        · rw [if_neg hd, if_neg hd]
          rfl
      · intro c hc
        by_cases hd : fs.isDir q = true
        · rw [if_pos hd] at hc
          rw [List.mem_map] at hc
          rcases hc with ⟨c0, hc0, rfl⟩
          rw [freshChildren, List.mem_map] at hc0
          rcases hc0 with ⟨x, hx, rfl⟩
          rw [restoreFuel_isDir, restoreFuel_path, freshChild]
          simp
        · rw [if_neg hd] at hc
          simp at hc
      · intro c hc
        by_cases hd : fs.isDir q = true
        · rw [if_pos hd] at hc
          rw [List.mem_map] at hc
          rcases hc with ⟨c0, hc0, rfl⟩
          rw [freshChildren, List.mem_map] at hc0
          rcases hc0 with ⟨x, hx, rfl⟩
          rw [freshChild]
          refine ih (q ++ [x]) ?_
          have hlt := prefix_filter_extend_lt hq x
          omega
        · rw [if_neg hd] at hc
          simp at hc
    · simp only [restoreFuel, TreeNode.path_mk]
      rw [if_neg hq]
      exact RestoredFresh.skip hq

theorem RestoredFresh.expanded_iff {fs : Fs} {S : List (List String)}
    {R : TreeNode} (h : RestoredFresh fs S R) :
    R.expanded = true ↔ R.path ∈ S := by
  cases h with
  | skip hq => simpa using hq
  | load hq _ _ _ => simpa using hq

theorem RestoredFresh.children_of_expanded {fs : Fs} {S : List (List String)}
    {R : TreeNode} (h : RestoredFresh fs S R) (he : R.expanded = true) :
    R.children.map TreeNode.path = loadedChildPaths fs R.path := by
  cases h with
  | skip hq => exact absurd he (by simp)
  | load hq hpaths _ _ => simpa using hpaths

theorem RestoredFresh.children_of_collapsed {fs : Fs}
    {S : List (List String)} {R : TreeNode} (h : RestoredFresh fs S R)
    (he : R.expanded = false) : R.children = [] := by
  cases h with
  | skip _ => rfl
  | load _ _ _ _ => exact absurd he (by simp)

theorem RestoredFresh.sub {fs : Fs} {S : List (List String)} {R m : TreeNode}
    (h : RestoredFresh fs S R) (hs : Subnode R m) : RestoredFresh fs S m := by
  induction hs with
  | refl => exact h
  | child hsub hm ih =>
    cases ih with
    | skip _ => simp at hm
    | load _ _ _ hrec => exact hrec _ hm

theorem RestoredFresh.strict_isDir {fs : Fs} {S : List (List String)}
    {R m : TreeNode} (h : RestoredFresh fs S R) (hs : StrictSubnode R m) :
    m.isDirectory = fs.isDir m.path := by
  rcases strict_parent hs with ⟨e, he, hme⟩
  have hre := h.sub he
  cases hre with
  | skip _ => simp at hme
  | load _ _ hdirs _ => exact hdirs _ hme

theorem initRoot_children_paths (fs : Fs) (p : List String) :
    (initRootNode fs p).children.map TreeNode.path = loadedChildPaths fs p := by
  rw [initRootNode_eq, TreeNode.children_mk, loadedChildPaths]
  by_cases hd : fs.isDir p = true
  · rw [if_pos hd, if_pos hd, freshChildren, List.map_map]
    refine List.map_congr_left ?_
    intro x hx
    simp [Function.comp, freshChild]
  · rw [if_neg hd, if_neg hd]
    rfl

theorem mem_initRoot_children {fs : Fs} {p : List String} {c : TreeNode}
    (hc : c ∈ (initRootNode fs p).children) :
    ∃ x ∈ admittedNames fs p,
      c = TreeNode.mk (p ++ [x]) (fs.isDir (p ++ [x])) false [] := by
  rw [initRootNode_eq, TreeNode.children_mk] at hc
  by_cases hd : fs.isDir p = true
  · rw [if_pos hd, freshChildren, List.mem_map] at hc
    rcases hc with ⟨x, hx, rfl⟩
    exact ⟨x, hx, rfl⟩
  · rw [if_neg hd] at hc
    simp at hc

/-- C2 counterexample, along a concrete command run over `fsA` (down, expand
`r/a`, up, collapse the root by toggling, refresh): before the refresh the
root is collapsed and `r/a` is expanded; after the refresh the root is
expanded with its children loaded, while `r/a` — whose path is in the
collected expanded set — is collapsed and unloaded. -/
theorem c2_counterexample :
    s4C2.root = TreeNode.mk ["r"] true false [TreeNode.mk ["r", "a"] true true []]
      ∧ collectExpandedPaths s4C2.root = [["r", "a"]]
      ∧ s5C2.root =
          TreeNode.mk ["r"] true true [TreeNode.mk ["r", "a"] true false []]
      ∧ s5C2.selectedIndex = 0 :=
  ⟨rfl, rfl, rfl, rfl⟩

/-- C2 amended: refresh resets the selection index to 0 and rebuilds the tree
so that the new root — at the same root path — is always expanded with its
children freshly loaded; a child of the root is expanded with its children
loaded exactly when both the root's path and its own path were expanded
before; and any deeper node of the rebuilt tree is expanded with children
loaded exactly when its own path was expanded before (it exists at all only
beneath restored, hence previously-expanded, ancestors).  Collapsed nodes of
the rebuilt tree carry no children. -/
theorem c2_refresh_characterization (fs : Fs) (s : ViewerState) :
    (refreshTree fs s).selectedIndex = 0
      ∧ (refreshTree fs s).root.path = s.rootPath
      ∧ (refreshTree fs s).root.expanded = true
      ∧ (refreshTree fs s).root.children.map TreeNode.path =
          loadedChildPaths fs s.rootPath
      ∧ (∀ c ∈ (refreshTree fs s).root.children,
          (c.expanded = true ↔
              (s.rootPath ∈ collectExpandedPaths s.root ∧
                c.path ∈ collectExpandedPaths s.root))
            ∧ c.isDirectory = fs.isDir c.path
            ∧ (c.expanded = true →
                c.children.map TreeNode.path = loadedChildPaths fs c.path)
            ∧ (c.expanded = false → c.children = []))
      ∧ (∀ c ∈ (refreshTree fs s).root.children, ∀ m, StrictSubnode c m →
          (m.expanded = true ↔ m.path ∈ collectExpandedPaths s.root)
            ∧ m.isDirectory = fs.isDir m.path
            ∧ (m.expanded = true →
                m.children.map TreeNode.path = loadedChildPaths fs m.path)
            ∧ (m.expanded = false → m.children = [])) := by
  have hroot : (refreshTree fs s).root =
      restoreFuel fs (collectExpandedPaths s.root)
        ((collectExpandedPaths s.root).length + 2)
        (initRootNode fs s.rootPath) := rfl
  refine ⟨rfl, ?_, ?_, ?_, ?_, ?_⟩ <;>
    by_cases hp : s.rootPath ∈ collectExpandedPaths s.root
  all_goals
    try rw [hroot, show (collectExpandedPaths s.root).length + 2 =
      ((collectExpandedPaths s.root).length + 1) + 1 from rfl]
  · rw [restoreFuel_initRoot_mem _ _ _ _ hp, TreeNode.path_mk]
  · rw [restoreFuel_initRoot_notmem _ _ _ _ hp, initRootNode_path]
  · rw [restoreFuel_initRoot_mem _ _ _ _ hp, TreeNode.expanded_mk]
  · rw [restoreFuel_initRoot_notmem _ _ _ _ hp, initRootNode_expanded]
  · rw [restoreFuel_initRoot_mem _ _ _ _ hp, TreeNode.children_mk,
      List.map_map]
    rw [show TreeNode.path ∘
        restoreFuel fs (collectExpandedPaths s.root)
          ((collectExpandedPaths s.root).length + 1) = TreeNode.path from ?_]
    · exact initRoot_children_paths fs s.rootPath
    · funext n
      simp [Function.comp, restoreFuel_path]
  · rw [restoreFuel_initRoot_notmem _ _ _ _ hp]
    exact initRoot_children_paths fs s.rootPath
  · -- children props, root path previously expanded
    rw [restoreFuel_initRoot_mem _ _ _ _ hp, TreeNode.children_mk]
    intro c hc
    rw [List.mem_map] at hc
    rcases hc with ⟨c0, hc0, rfl⟩
    rcases mem_initRoot_children hc0 with ⟨x, hx, rfl⟩
    have hrf : RestoredFresh fs (collectExpandedPaths s.root)
        (restoreFuel fs (collectExpandedPaths s.root)
          ((collectExpandedPaths s.root).length + 1)
          (TreeNode.mk (s.rootPath ++ [x])
            (fs.isDir (s.rootPath ++ [x])) false [])) := by
      refine restoreFuel_fresh_restored fs _ _ _ ?_
      have := List.length_filter_le
        (fun z => (s.rootPath ++ [x]).isPrefixOf z) (collectExpandedPaths s.root)
      omega
    refine ⟨?_, ?_, hrf.children_of_expanded, hrf.children_of_collapsed⟩
    · rw [hrf.expanded_iff]
      constructor
      · intro hmem; exact ⟨hp, hmem⟩
      · rintro ⟨_, hmem⟩; exact hmem
    · rw [restoreFuel_isDir, restoreFuel_path]
      simp
  · -- children props, root path not previously expanded
    rw [restoreFuel_initRoot_notmem _ _ _ _ hp]
    intro c hc
    rcases mem_initRoot_children hc with ⟨x, hx, rfl⟩
    refine ⟨?_, by simp, ?_, fun _ => rfl⟩
    · simp only [TreeNode.expanded_mk]
      constructor
      · intro h; exact absurd h (by simp)
      · rintro ⟨h, _⟩; exact absurd h hp
    · intro h
      exact absurd h (by simp)
  · -- deeper nodes, root path previously expanded
    rw [restoreFuel_initRoot_mem _ _ _ _ hp, TreeNode.children_mk]
    intro c hc m hm
    rw [List.mem_map] at hc
    rcases hc with ⟨c0, hc0, rfl⟩
    rcases mem_initRoot_children hc0 with ⟨x, hx, rfl⟩
    have hrf : RestoredFresh fs (collectExpandedPaths s.root)
        (restoreFuel fs (collectExpandedPaths s.root)
          ((collectExpandedPaths s.root).length + 1)
          (TreeNode.mk (s.rootPath ++ [x])
            (fs.isDir (s.rootPath ++ [x])) false [])) := by
      refine restoreFuel_fresh_restored fs _ _ _ ?_
      have := List.length_filter_le
        (fun z => (s.rootPath ++ [x]).isPrefixOf z) (collectExpandedPaths s.root)
      omega
    have hsubm : Subnode
        (restoreFuel fs (collectExpandedPaths s.root)
          ((collectExpandedPaths s.root).length + 1)
          (TreeNode.mk (s.rootPath ++ [x])
            (fs.isDir (s.rootPath ++ [x])) false [])) m := by
      rcases hm with ⟨k, hk, hsub⟩
      exact subnode_of_child_subnode hk hsub
    have hrfm := hrf.sub hsubm
    exact ⟨hrfm.expanded_iff, hrf.strict_isDir hm,
      hrfm.children_of_expanded, hrfm.children_of_collapsed⟩
  · -- deeper nodes, root path not previously expanded: children are fresh
    rw [restoreFuel_initRoot_notmem _ _ _ _ hp]
    intro c hc m hm
    rcases mem_initRoot_children hc with ⟨x, hx, rfl⟩
    exact absurd hm (strict_of_childless rfl)

/-- Witness for the amended C2 at the concrete pre-refresh state `s4C2`. -/
theorem c2_refresh_characterization_witness :
    (refreshTree fsA s4C2).selectedIndex = 0
      ∧ (refreshTree fsA s4C2).root.path = s4C2.rootPath
      ∧ (refreshTree fsA s4C2).root.expanded = true
      ∧ (refreshTree fsA s4C2).root.children.map TreeNode.path =
          loadedChildPaths fsA s4C2.rootPath :=
  ⟨(c2_refresh_characterization fsA s4C2).1,
    (c2_refresh_characterization fsA s4C2).2.1,
    (c2_refresh_characterization fsA s4C2).2.2.1,
    (c2_refresh_characterization fsA s4C2).2.2.2.1⟩

/-! Lookup and in-place toggling by path. -/

theorem toggleExpanded_path (fs : Fs) (n : TreeNode) :
    (toggleExpanded fs n).path = n.path := by
  rw [toggleExpanded]
  split
  · rw [TreeNode.path_mk]
    split
    · rw [loadChildren_path]
    · rfl
  · rfl

theorem toggleAtPath_path (fs : Fs) (r : TreeNode) (p : List String) :
    (toggleAtPath fs r p).path = r.path := by
  cases r with
  | mk q d e cs =>
    rw [toggleAtPath]
    split
    · rw [toggleExpanded_path]
    · rfl

theorem findPathList_none_iff (p : List String) : ∀ cs : List TreeNode,
    findPathList cs p = none ↔ ∀ c ∈ cs, findNodeByPath c p = none := by
  intro cs
  induction cs with
  | nil => simp [findPathList]
  | cons c t ih =>
    rw [findPathList]
    cases h : findNodeByPath c p with
    | some m =>
      simp only [reduceCtorEq, false_iff, not_forall]
      refine ⟨c, by simp, ?_⟩
      rw [h]
      simp
    | none =>
      rw [ih]
      constructor
      · intro hall x hx
        rcases List.mem_cons.mp hx with rfl | hx
        · exact h
        · exact hall x hx
      · intro hall x hx
        exact hall x (by simp [hx])

theorem find_eq_none_iff : ∀ (n : TreeNode) (p : List String),
    findNodeByPath n p = none ↔ p ∉ (allNodes n).map TreeNode.path := by
  intro n
  induction n using TreeNode.my_ind with
  | h q d e cs ih =>
    intro p
    rw [findNodeByPath, allNodes_eq]
    by_cases hq : q = p
    · subst hq
      simp
    · rw [if_neg hq, findPathList_none_iff]
      simp only [List.map_cons, List.mem_cons, List.map_flatten, List.map_map,
        List.mem_flatten]
      constructor
      · intro hall hmem
        rcases hmem with hqp | ⟨l, hl, hpl⟩
        · exact hq hqp.symm
        · rw [List.mem_map] at hl
          rcases hl with ⟨c, hc, rfl⟩
          have := (ih c hc p).mp (hall c hc)
          exact this (by simpa [Function.comp] using hpl)
      · intro hnot c hc
        rw [ih c hc p]
        intro hmem
        exact hnot (Or.inr ⟨(allNodes c).map TreeNode.path,
          List.mem_map_of_mem _ hc, by simpa [Function.comp] using hmem⟩)

theorem find_spec : ∀ (r : TreeNode) (p : List String) (m : TreeNode),
    findNodeByPath r p = some m → Subnode r m ∧ m.path = p := by
  intro r
  induction r using TreeNode.my_ind with
  | h q d e cs ih =>
    intro p m h
    rw [findNodeByPath] at h
    split at h
    · rename_i hqp
      injection h with h2
      subst h2
      exact ⟨Subnode.refl _, by simpa using hqp⟩
    · suffices aux : ∀ cs2 : List TreeNode,
          (∀ c ∈ cs2, ∀ m2, findNodeByPath c p = some m2 →
            Subnode c m2 ∧ m2.path = p) →
          findPathList cs2 p = some m →
          ∃ c ∈ cs2, Subnode c m ∧ m.path = p by
        rcases aux cs (fun c hc m2 => ih c hc p m2) h with ⟨c, hc, hsub, hp⟩
        exact ⟨subnode_of_child_subnode (by simpa using hc) hsub, hp⟩
      intro cs2 hih hfind
      induction cs2 with
      | nil => rw [findPathList] at hfind; exact Option.noConfusion hfind
      | cons c tl ihtl =>
        rw [findPathList] at hfind
        cases hcase : findNodeByPath c p with
        | some m2 =>
          rw [hcase] at hfind
          injection hfind with h2
          subst h2
          exact ⟨c, by simp, hih c (by simp) m2 hcase⟩
        | none =>
          rw [hcase] at hfind
          rcases ihtl (fun c2 hc2 => hih c2 (by simp [hc2])) hfind with
            ⟨c2, hc2, rest⟩
          exact ⟨c2, by simp [hc2], rest⟩

theorem find_self {n : TreeNode} {p : List String} (h : n.path = p) :
    findNodeByPath n p = some n := by
  cases n with
  | mk q d e cs =>
    rw [findNodeByPath, if_pos (by simpa using h)]

theorem find_some_of_subnode {r m : TreeNode} (hw : wfNode r = true)
    (hsub : Subnode r m) : findNodeByPath r m.path = some m := by
  have hmem : m.path ∈ (allNodes r).map TreeNode.path :=
    List.mem_map_of_mem _ ((mem_allNodes_iff r m).mpr hsub)
  cases hfind : findNodeByPath r m.path with
  | none => exact absurd hmem ((find_eq_none_iff r m.path).mp hfind)
  | some m2 =>
    rcases find_spec r m.path m2 hfind with ⟨hsub2, hp2⟩
    rw [path_inj (wf_nodupPaths r hw) hsub2 hsub hp2]

theorem toggleAtPath_noop : ∀ (fs : Fs) (c : TreeNode) (p : List String),
    p ∉ (allNodes c).map TreeNode.path → toggleAtPath fs c p = c := by
  intro fs c
  induction c using TreeNode.my_ind with
  | h q d e cs ih =>
    intro p hp
    have hq : q ≠ p := by
      intro h2
      refine hp ?_
      rw [allNodes_eq]
      simp [h2]
    have hrest : ∀ c2 ∈ cs, p ∉ (allNodes c2).map TreeNode.path := by
      intro c2 hc2 hmem
      refine hp ?_
      rw [allNodes_eq, List.map_cons]
      refine List.mem_cons.mpr (Or.inr ?_)
      rw [List.map_flatten, List.map_map, List.mem_flatten]
      exact ⟨(List.map TreeNode.path ∘ allNodes) c2,
        List.mem_map_of_mem _ hc2, hmem⟩
    rw [toggleAtPath, if_neg hq, toggleListAtPath_eq]
    congr 1
    rw [show cs.map (fun c2 => toggleAtPath fs c2 p) = cs.map id from
      List.map_congr_left (fun c2 hc2 => ih c2 hc2 p (hrest c2 hc2)),
      List.map_id]

theorem find_toggle : ∀ (fs : Fs) (r : TreeNode) (p : List String)
    (m : TreeNode), findNodeByPath r p = some m →
    findNodeByPath (toggleAtPath fs r p) p = some (toggleExpanded fs m) := by
  intro fs r
  induction r using TreeNode.my_ind with
  | h q d e cs ih =>
    intro p m hfind
    rw [findNodeByPath] at hfind
    rw [toggleAtPath]
    by_cases hq : q = p
    · rw [if_pos hq] at hfind
      injection hfind with h2
      subst h2
      rw [if_pos hq]
      exact find_self (by rw [toggleExpanded_path]; simpa using hq)
    · rw [if_neg hq] at hfind
      rw [if_neg hq, findNodeByPath, if_neg hq, toggleListAtPath_eq]
      suffices aux : ∀ cs2 : List TreeNode,
          (∀ c ∈ cs2, ∀ m2, findNodeByPath c p = some m2 →
            findNodeByPath (toggleAtPath fs c p) p =
              some (toggleExpanded fs m2)) →
          findPathList cs2 p = some m →
          findPathList (cs2.map (fun c2 => toggleAtPath fs c2 p)) p =
            some (toggleExpanded fs m) by
        exact aux cs (fun c hc m2 => ih c hc p m2) hfind
      intro cs2
      induction cs2 with
      | nil =>
        intro _ hfind2
        rw [findPathList] at hfind2
        exact Option.noConfusion hfind2
      | cons c tl ihtl =>
        intro hih hfind2
        rw [findPathList] at hfind2
        rw [List.map_cons, findPathList]
        cases hcase : findNodeByPath c p with
        | some m2 =>
          rw [hcase] at hfind2
          injection hfind2 with h2
          subst h2
          rw [hih c (by simp) m2 hcase]
        | none =>
          rw [hcase] at hfind2
          have hnoop : toggleAtPath fs c p = c :=
            toggleAtPath_noop fs c p ((find_eq_none_iff c p).mp hcase)
          rw [hnoop, hcase]
          exact ihtl (fun c2 hc2 m2 => hih c2 (by simp [hc2]) m2) hfind2

theorem toggleExpanded_of_expanded_dir {fs : Fs} {n : TreeNode}
    (hd : n.isDirectory = true) (he : n.expanded = true) :
    toggleExpanded fs n =
      TreeNode.mk n.path n.isDirectory false n.children := by
  rw [toggleExpanded, if_pos hd]
  simp only [he, Bool.not_true, Bool.false_eq_true, if_false]

/-! Parent recovery. -/

theorem findParent_spec : ∀ (r t d : TreeNode),
    findParentNode r t = some d → Subnode r d ∧ t ∈ d.children := by
  intro r
  induction r using TreeNode.my_ind with
  | h q dd e cs ih =>
    intro t d h
    rw [findParentNode] at h
    split at h
    · rename_i hany
      injection h with h2
      subst h2
      rw [List.any_eq_true] at hany
      rcases hany with ⟨c, hc, hbeq⟩
      rw [TreeNode.beq_iff] at hbeq
      subst hbeq
      exact ⟨Subnode.refl _, by simpa using hc⟩
    · suffices aux : ∀ cs2 : List TreeNode,
          (∀ c ∈ cs2, ∀ d2, findParentNode c t = some d2 →
            Subnode c d2 ∧ t ∈ d2.children) →
          findParentList cs2 t = some d →
          ∃ c ∈ cs2, Subnode c d ∧ t ∈ d.children by
        rcases aux cs (fun c hc d2 => ih c hc t d2) h with ⟨c, hc, hsub, hmem⟩
        exact ⟨subnode_of_child_subnode (by simpa using hc) hsub, hmem⟩
      intro cs2
      induction cs2 with
      | nil =>
        intro _ hfind
        rw [findParentList] at hfind
        exact Option.noConfusion hfind
      | cons c tl ihtl =>
        intro hih hfind
        rw [findParentList] at hfind
        cases hcase : findParentNode c t with
        | some d2 =>
          rw [hcase] at hfind
          injection hfind with h2
          subst h2
          exact ⟨c, by simp, hih c (by simp) d2 hcase⟩
        | none =>
          rw [hcase] at hfind
          rcases ihtl (fun c2 hc2 d2 => hih c2 (by simp [hc2]) d2) hfind with
            ⟨c2, hc2, rest⟩
          exact ⟨c2, by simp [hc2], rest⟩

theorem findParentList_none_iff (t : TreeNode) : ∀ cs : List TreeNode,
    findParentList cs t = none ↔ ∀ c ∈ cs, findParentNode c t = none := by
  intro cs
  induction cs with
  | nil => simp [findParentList]
  | cons c tl ih =>
    rw [findParentList]
    cases h : findParentNode c t with
    | some d =>
      simp only [reduceCtorEq, false_iff, not_forall]
      refine ⟨c, by simp, ?_⟩
      rw [h]
      simp
    | none =>
      rw [ih]
      constructor
      · intro hall x hx
        rcases List.mem_cons.mp hx with rfl | hx
        · exact h
        · exact hall x hx
      · intro hall x hx
        exact hall x (by simp [hx])

theorem findParent_none : ∀ (r t : TreeNode), findParentNode r t = none →
    ∀ e, Subnode r e → t ∉ e.children := by
  intro r
  induction r using TreeNode.my_ind with
  | h q dd ee cs ih =>
    intro t hnone e hsub hmem
    rw [findParentNode] at hnone
    split at hnone
    · exact Option.noConfusion hnone
    · rename_i hany
      rcases subnode_eq_or_strict hsub with rfl | hstrict
      · refine hany ?_
        rw [List.any_eq_true]
        exact ⟨t, by simpa using hmem, (TreeNode.beq_iff t t).mpr rfl⟩
      · rcases hstrict with ⟨c, hc, hsub2⟩
        have hcnone : findParentNode c t = none :=
          (findParentList_none_iff t cs).mp hnone c (by simpa using hc)
        exact ih c (by simpa using hc) t hcnone e hsub2 hmem

theorem findParent_correct {r m : TreeNode} (hw : wfNode r = true)
    (hvis : m ∈ collectVisibleNodes r) (hne : m ≠ r) :
    ∃ par, findParentNode r m = some par ∧ par ∈ collectVisibleNodes r ∧
      m ∈ par.children ∧ par.expanded = true := by
  rcases parent_of_visible ((mem_collect_iff_visible r m).mp hvis) hne with
    ⟨e, hevis, hexp, hmem⟩
  cases hfind : findParentNode r m with
  | none =>
    exact absurd hmem (findParent_none r m hfind e (visible_subnode hevis))
  | some par =>
    rcases findParent_spec r m par hfind with ⟨hsubp, hmemp⟩
    have : par = e := parent_unique hw hsubp (visible_subnode hevis) hmemp hmem
    subst this
    exact ⟨par, rfl, (mem_collect_iff_visible r par).mpr hevis, hmemp, hexp⟩

/-! Navigation bounds. -/

theorem strict_of_parent {r par node : TreeNode} (hsub : Subnode r par)
    (hmem : node ∈ par.children) : StrictSubnode r node := by
  rcases subnode_eq_or_strict hsub with rfl | ⟨c, hc, hsub2⟩
  · exact ⟨node, hmem, Subnode.refl _⟩
  · exact ⟨c, hc, Subnode.child hsub2 hmem⟩

theorem updateDisplay_vis (s : ViewerState) :
    (updateDisplay s).visibleNodes = collectVisibleNodes s.root := rfl

theorem updateDisplay_root (s : ViewerState) :
    (updateDisplay s).root = s.root := rfl

theorem updateDisplay_rootPath (s : ViewerState) :
    (updateDisplay s).rootPath = s.rootPath := rfl

theorem updateDisplay_bounds (s : ViewerState) :
    0 ≤ (updateDisplay s).selectedIndex ∧
      (updateDisplay s).selectedIndex <
        ((updateDisplay s).visibleNodes.length : Int) := by
  have hlen : 0 < (collectVisibleNodes s.root).length :=
    List.length_pos.mpr (collect_ne_nil s.root)
  have hlen2 : (1 : Int) ≤ ((collectVisibleNodes s.root).length : Int) := by
    exact_mod_cast hlen
  rw [updateDisplay]
  dsimp only
  constructor <;> (split_ifs <;> omega)

theorem moveUp_bounds {s : ViewerState} (h0 : 0 ≤ s.selectedIndex)
    (h1 : s.selectedIndex < (s.visibleNodes.length : Int)) :
    0 ≤ (moveUp s).selectedIndex ∧
      (moveUp s).selectedIndex < ((moveUp s).visibleNodes.length : Int) ∧
      (moveUp s).visibleNodes = s.visibleNodes := by
  rw [moveUp]
  by_cases hg : 0 < s.selectedIndex
  · rw [if_pos hg]
    refine ⟨?_, ?_, rfl⟩
    · show 0 ≤ s.selectedIndex - 1
      omega
    · show s.selectedIndex - 1 < (s.visibleNodes.length : Int)
      omega
  · rw [if_neg hg]
    exact ⟨h0, h1, rfl⟩

theorem moveDown_bounds {s : ViewerState} (h0 : 0 ≤ s.selectedIndex)
    (h1 : s.selectedIndex < (s.visibleNodes.length : Int)) :
    0 ≤ (moveDown s).selectedIndex ∧
      (moveDown s).selectedIndex < ((moveDown s).visibleNodes.length : Int) ∧
      (moveDown s).visibleNodes = s.visibleNodes := by
  rw [moveDown]
  by_cases hg : s.selectedIndex < (s.visibleNodes.length : Int) - 1
  · rw [if_pos hg]
    refine ⟨?_, ?_, rfl⟩
    · show 0 ≤ s.selectedIndex + 1
      omega
    · show s.selectedIndex + 1 < (s.visibleNodes.length : Int)
      omega
  · rw [if_neg hg]
    exact ⟨h0, h1, rfl⟩

theorem toggleNode_idx_vis (fs : Fs) (s : ViewerState) :
    (toggleNode fs s).selectedIndex = s.selectedIndex ∧
      (toggleNode fs s).visibleNodes = s.visibleNodes := by
  rw [toggleNode]
  split
  · exact ⟨rfl, rfl⟩
  · split <;> exact ⟨rfl, rfl⟩

theorem expandNode_idx_vis (fs : Fs) (s : ViewerState) :
    (expandNode fs s).selectedIndex = s.selectedIndex ∧
      (expandNode fs s).visibleNodes = s.visibleNodes := by
  rw [expandNode]
  split
  · exact ⟨rfl, rfl⟩
  · split
    · split <;> exact ⟨rfl, rfl⟩
    · exact ⟨rfl, rfl⟩

theorem collapseNode_bounds (fs : Fs) (s : ViewerState)
    (hw : wfNode s.root = true)
    (hsync : s.visibleNodes = collectVisibleNodes s.root)
    (h0 : 0 ≤ s.selectedIndex)
    (h1 : s.selectedIndex < (s.visibleNodes.length : Int)) :
    0 ≤ (collapseNode fs s).selectedIndex ∧
      (collapseNode fs s).selectedIndex <
        ((collapseNode fs s).visibleNodes.length : Int) ∧
      (collapseNode fs s).visibleNodes = s.visibleNodes := by
  rw [collapseNode, if_pos h1]
  split
  · rename_i node heq
    split
    · exact ⟨h0, h1, rfl⟩
    · cases hfp : findParentNode s.root node with
      | none => exact ⟨h0, h1, rfl⟩
      | some par =>
        have hmemnode : node ∈ s.visibleNodes := List.getElem?_mem heq
        have hviscol : node ∈ collectVisibleNodes s.root := hsync ▸ hmemnode
        rcases findParent_spec s.root node par hfp with ⟨hsubp, hmemp⟩
        have hne : node ≠ s.root := by
          intro h2
          have hstrict := strict_of_parent hsubp hmemp
          have := hstrict.sizeOf_lt
          rw [h2] at this
          omega
        rcases findParent_correct hw hviscol hne with
          ⟨par2, hfind2, hvispar, _, _⟩
        rw [hfp] at hfind2
        injection hfind2 with h2
        subst h2
        have hmempar : par ∈ s.visibleNodes := by rw [hsync]; exact hvispar
        have hex : ∃ x ∈ s.visibleNodes, TreeNode.beq x par = true :=
          ⟨par, hmempar, (TreeNode.beq_iff par par).mpr rfl⟩
        have hj := List.findIdx_lt_length_of_exists hex
        refine ⟨?_, ?_, rfl⟩
        · show (0 : Int) ≤
            (s.visibleNodes.findIdx (fun m => TreeNode.beq m par) : Int)
          positivity
        · show (s.visibleNodes.findIdx (fun m => TreeNode.beq m par) : Int) <
            (s.visibleNodes.length : Int)
          exact_mod_cast hj
  · exact ⟨h0, h1, rfl⟩

theorem refreshTree_idx_vis (fs : Fs) (s : ViewerState) :
    (refreshTree fs s).selectedIndex = 0 ∧
      (refreshTree fs s).visibleNodes = s.visibleNodes := ⟨rfl, rfl⟩

theorem applyCmd_bounds (fs : Fs) (u : ViewerState) (c : Cmd)
    (hw : wfNode u.root = true)
    (hsync : u.visibleNodes = collectVisibleNodes u.root)
    (h0 : 0 ≤ u.selectedIndex)
    (h1 : u.selectedIndex < (u.visibleNodes.length : Int))
    (hne : u.visibleNodes ≠ []) :
    0 ≤ (applyCmd fs u c).selectedIndex ∧
      (applyCmd fs u c).selectedIndex <
        ((applyCmd fs u c).visibleNodes.length : Int) ∧
      (applyCmd fs u c).visibleNodes = u.visibleNodes := by
  cases c with
  | up => exact moveUp_bounds h0 h1
  | down => exact moveDown_bounds h0 h1
  | enter => exact ⟨h0, h1, rfl⟩
  | quit => exact ⟨h0, h1, rfl⟩
  | space =>
    rcases toggleNode_idx_vis fs u with ⟨hi, hv⟩
    rw [show applyCmd fs u Cmd.space = toggleNode fs u from rfl, hi, hv]
    exact ⟨h0, h1, rfl⟩
  | right =>
    rcases expandNode_idx_vis fs u with ⟨hi, hv⟩
    rw [show applyCmd fs u Cmd.right = expandNode fs u from rfl, hi, hv]
    exact ⟨h0, h1, rfl⟩
  | left => exact collapseNode_bounds fs u hw hsync h0 h1
  | refresh =>
    rcases refreshTree_idx_vis fs u with ⟨hi, hv⟩
    rw [show applyCmd fs u Cmd.refresh = refreshTree fs u from rfl, hi, hv]
    have hlen : u.visibleNodes.length ≠ 0 :=
      fun h2 => hne (List.length_eq_zero.mp h2)
    refine ⟨le_refl 0, by omega, rfl⟩

/-- C3: from any state over a well-formed tree, one interactive-loop step
(redraw, then any command other than refresh and select-and-finish) leaves
the selection index within `[0, len(visible_nodes))`; the visible tuple is
never empty, repeated moves therefore never escape the bounds, and the
redraw itself clamps the index into range before any indexing. -/
theorem c3_selection_bounds (fs : Fs) (s : ViewerState) (c : Cmd)
    (hw : wfNode s.root = true) (hc1 : c ≠ Cmd.refresh) (hc2 : c ≠ Cmd.enter) :
    (0 ≤ (step fs s c).selectedIndex ∧
        (step fs s c).selectedIndex <
          ((step fs s c).visibleNodes.length : Int))
      ∧ (step fs s c).visibleNodes ≠ []
      ∧ (0 ≤ (updateDisplay s).selectedIndex ∧
          (updateDisplay s).selectedIndex <
            ((updateDisplay s).visibleNodes.length : Int)) := by
  have hb := updateDisplay_bounds s
  have happ := applyCmd_bounds fs (updateDisplay s) c hw rfl hb.1 hb.2
    (by rw [updateDisplay_vis]; exact collect_ne_nil _)
  refine ⟨⟨happ.1, happ.2.1⟩, ?_, hb⟩
  rw [show (step fs s c).visibleNodes = (updateDisplay s).visibleNodes from
    happ.2.2, updateDisplay_vis]
  exact collect_ne_nil _

/-- Witness for C3 at a concrete state and command (move down from the
freshly constructed viewer over `fsA`). -/
theorem c3_selection_bounds_witness :
    wfNode (initState fsA ["r"]).root = true ∧
      ((0 ≤ (step fsA (initState fsA ["r"]) Cmd.down).selectedIndex ∧
          (step fsA (initState fsA ["r"]) Cmd.down).selectedIndex <
            (((step fsA (initState fsA ["r"]) Cmd.down).visibleNodes.length :
              Int)))
        ∧ (step fsA (initState fsA ["r"]) Cmd.down).visibleNodes ≠ []
        ∧ (0 ≤ (updateDisplay (initState fsA ["r"])).selectedIndex ∧
            (updateDisplay (initState fsA ["r"])).selectedIndex <
              ((updateDisplay (initState fsA ["r"])).visibleNodes.length :
                Int))) :=
  ⟨rfl, c3_selection_bounds fsA (initState fsA ["r"]) Cmd.down rfl
    (by decide) (by decide)⟩

/-- C4: with the display in sync, dispatching collapse on a selected node
that is not an expanded directory but has a parent leaves the tree untouched
and moves the selection index to exactly the parent's (unique) position in
the visible sequence; on a selected expanded directory it collapses that node
in place — children retained — and leaves the selection index unchanged.
`node ≠ s.root` renders "has a parent": the root is the only visible node
without one. -/
theorem c4_collapse_semantics (fs : Fs) (s : ViewerState)
    (hw : wfNode s.root = true)
    (hsync : s.visibleNodes = collectVisibleNodes s.root)
    (h0 : 0 ≤ s.selectedIndex)
    (h1 : s.selectedIndex < (s.visibleNodes.length : Int)) :
    ∀ node, s.visibleNodes[s.selectedIndex.toNat]? = some node →
      ((¬(node.isDirectory = true ∧ node.expanded = true)) → node ≠ s.root →
        (collapseNode fs s).root = s.root ∧
        ∃ par, findParentNode s.root node = some par ∧ node ∈ par.children ∧
          par.expanded = true ∧
          ∃ j, ∃ hj : j < s.visibleNodes.length,
            (collapseNode fs s).selectedIndex = (j : Int) ∧
            s.visibleNodes.get ⟨j, hj⟩ = par ∧
            (∀ j2, ∀ hj2 : j2 < s.visibleNodes.length,
              s.visibleNodes.get ⟨j2, hj2⟩ = par → j2 = j))
      ∧ ((node.isDirectory = true ∧ node.expanded = true) →
          (collapseNode fs s).selectedIndex = s.selectedIndex ∧
          (collapseNode fs s).root = toggleAtPath fs s.root node.path ∧
          findNodeByPath (collapseNode fs s).root node.path =
            some (TreeNode.mk node.path node.isDirectory false node.children)) := by
  intro node hget
  have hmemnode : node ∈ s.visibleNodes := List.getElem?_mem hget
  have hviscol : node ∈ collectVisibleNodes s.root := hsync ▸ hmemnode
  constructor
  · intro hnot hne
    have hbool : (node.isDirectory && node.expanded) = false := by
      rcases Bool.eq_false_or_eq_true (node.isDirectory && node.expanded) with
        h2 | h2
      · rw [Bool.and_eq_true] at h2
        exact absurd ⟨h2.1, h2.2⟩ hnot
      · exact h2
    rcases findParent_correct hw hviscol hne with
      ⟨par, hfp, hvispar, hmem, hexp⟩
    have hc2 : collapseNode fs s =
        { s with selectedIndex :=
            ((s.visibleNodes.findIdx (fun m => TreeNode.beq m par) : Nat) :
              Int) } := by
      rw [collapseNode, if_pos h1, hget]
      simp only [hbool, Bool.false_eq_true, if_false, hfp]
    have hmempar : par ∈ s.visibleNodes := by rw [hsync]; exact hvispar
    have hex : ∃ x ∈ s.visibleNodes, TreeNode.beq x par = true :=
      ⟨par, hmempar, (TreeNode.beq_iff par par).mpr rfl⟩
    have hj := List.findIdx_lt_length_of_exists hex
    refine ⟨by rw [hc2], par, hfp, hmem, hexp,
      s.visibleNodes.findIdx (fun m => TreeNode.beq m par), hj,
      by rw [hc2], ?_, ?_⟩
    · have := @List.findIdx_getElem _ (fun m => TreeNode.beq m par)
        s.visibleNodes hj
      rw [TreeNode.beq_iff] at this
      rw [List.get_eq_getElem]
      exact this
    · intro j2 hj2 hgetj2
      have hnodup : s.visibleNodes.Nodup := by
        rw [hsync]
        exact List.Nodup.of_map TreeNode.path
          (visible_paths_nodup (wf_nodupPaths _ hw))
      have hgj : s.visibleNodes.get
          ⟨s.visibleNodes.findIdx (fun m => TreeNode.beq m par), hj⟩ = par := by
        have := @List.findIdx_getElem _ (fun m => TreeNode.beq m par)
          s.visibleNodes hj
        rw [TreeNode.beq_iff] at this
        rw [List.get_eq_getElem]
        exact this
      have heq2 : s.visibleNodes.get ⟨j2, hj2⟩ =
          s.visibleNodes.get
            ⟨s.visibleNodes.findIdx (fun m => TreeNode.beq m par), hj⟩ := by
        rw [hgetj2, hgj]
      have := (hnodup.get_inj_iff).mp heq2
      exact congrArg Fin.val this
  · rintro ⟨hd, he⟩
    have hbool : (node.isDirectory && node.expanded) = true := by
      rw [Bool.and_eq_true]; exact ⟨hd, he⟩
    have hc2 : collapseNode fs s =
        { s with root := toggleAtPath fs s.root node.path } := by
      rw [collapseNode, if_pos h1, hget]
      simp only [hbool, if_true]
    have hfind0 : findNodeByPath s.root node.path = some node :=
      find_some_of_subnode hw
        (visible_subnode ((mem_collect_iff_visible _ _).mp hviscol))
    refine ⟨by rw [hc2], by rw [hc2], ?_⟩
    rw [hc2]
    have := find_toggle fs s.root node.path node hfind0
    rw [toggleExpanded_of_expanded_dir hd he] at this
    exact this

/-- Witness for C4 at the concrete state after moving down onto the
collapsed directory `r/a`: collapse leaves the tree alone and jumps the
selection to the parent (the root, index 0). -/
theorem c4_collapse_semantics_witness :
    (collapseNode fsA (step fsA (initState fsA ["r"]) Cmd.down)).root =
        (step fsA (initState fsA ["r"]) Cmd.down).root
      ∧ (collapseNode fsA
          (step fsA (initState fsA ["r"]) Cmd.down)).selectedIndex = 0 := by
  have h := c4_collapse_semantics fsA (step fsA (initState fsA ["r"]) Cmd.down)
    rfl rfl (by decide) (by decide)
    (TreeNode.mk ["r", "a"] true false []) rfl
  have hA := h.1 (by decide)
    (by
      intro h2
      exact absurd (congrArg TreeNode.path h2) (by decide))
  exact ⟨hA.1, rfl⟩

/-! Preservation of well-formedness and the session invariant. -/

theorem wfNode_flags (p : List String) (d e d2 e2 : Bool)
    (cs : List TreeNode) :
    wfNode (TreeNode.mk p d e cs) = wfNode (TreeNode.mk p d2 e2 cs) := by
  rw [wfNode, wfNode]

theorem wf_leaf (p : List String) (d e : Bool) :
    wfNode (TreeNode.mk p d e []) = true := by
  rw [wfNode_mk_iff]
  simp

theorem wf_loadChildren {fs : Fs} (hok : FsOk fs) {n : TreeNode}
    (hw : wfNode n = true) : wfNode (loadChildren fs n) = true := by
  by_cases hd : n.isDirectory = true
  · by_cases hc : n.children = []
    · rw [loadChildren_unloaded hd hc, wfNode_mk_iff]
      constructor
      · rw [List.map_map]
        rw [show childName ∘ freshChild fs.isDir n.path = id from ?_,
          List.map_id]
        · exact admittedNames_nodup hok n.path
        · funext x
          simp [Function.comp, childName_freshChild]
      · intro c hc2
        rw [List.mem_map] at hc2
        rcases hc2 with ⟨x, hx, rfl⟩
        refine ⟨by simp [freshChild], ?_, ?_⟩
        · rw [freshChild, TreeNode.path_mk, List.dropLast_concat]
        · exact wf_leaf _ _ _
    · rw [loadChildren_noop_of_nonempty hc]
      exact hw
  · rw [Bool.not_eq_true] at hd
    rw [loadChildren_noop_of_file hd]
    exact hw

theorem wf_map_children (fs : Fs) (g : TreeNode → TreeNode)
    (hpath : ∀ c, (g c).path = c.path) {M : TreeNode}
    (hw : wfNode M = true) (hrec : ∀ c ∈ M.children, wfNode (g c) = true) :
    wfNode (TreeNode.mk M.path M.isDirectory M.expanded
      (M.children.map g)) = true := by
  cases M with
  | mk q dd ee cs =>
    simp only [TreeNode.path_mk, TreeNode.isDirectory_mk, TreeNode.expanded_mk,
      TreeNode.children_mk] at hw hrec ⊢
    rw [wfNode_mk_iff] at hw ⊢
    constructor
    · rw [List.map_map]
      rw [show childName ∘ g = childName from ?_]
      · exact hw.1
      · funext c
        rw [Function.comp]
        show childName (g c) = childName c
        rw [childName, childName, hpath]
    · intro c hc
      rw [List.mem_map] at hc
      rcases hc with ⟨c0, hc0, rfl⟩
      rcases hw.2 c0 hc0 with ⟨hp1, hp2, _⟩
      exact ⟨by rw [hpath]; exact hp1, by rw [hpath]; exact hp2, hrec c0 hc0⟩

theorem wf_toggleExpanded {fs : Fs} (hok : FsOk fs) {n : TreeNode}
    (hw : wfNode n = true) : wfNode (toggleExpanded fs n) = true := by
  rw [toggleExpanded]
  split
  · have hm : wfNode (if !n.expanded then loadChildren fs n else n) = true := by
      split
      · exact wf_loadChildren hok hw
      · exact hw
    generalize hmn : (if !n.expanded then loadChildren fs n else n) = m at hm
    cases m with
    | mk q dd ee cs =>
      show wfNode (TreeNode.mk q dd (!ee) cs) = true
      rw [wfNode_flags q dd (!ee) dd ee]
      exact hm
  · exact hw

theorem wf_toggleAtPath {fs : Fs} (hok : FsOk fs) :
    ∀ r : TreeNode, wfNode r = true → ∀ p : List String,
      wfNode (toggleAtPath fs r p) = true := by
  intro r
  induction r using TreeNode.my_ind with
  | h q d e cs ih =>
    intro hw p
    rw [toggleAtPath]
    split
    · exact wf_toggleExpanded hok hw
    · rw [toggleListAtPath_eq]
      have := wf_map_children fs (fun c => toggleAtPath fs c p)
        (fun c => toggleAtPath_path fs c p) hw
        (fun c hc => ih c hc ((wf_child hw hc).1) p)
      simpa using this

theorem wf_restoreFuel {fs : Fs} (hok : FsOk fs) (S : List (List String)) :
    ∀ fuel (n : TreeNode), wfNode n = true →
      wfNode (restoreFuel fs S fuel n) = true := by
  intro fuel
  induction fuel with
  | zero => intro n hw; exact hw
  | succ f ih =>
    intro n hw
    rw [restoreFuel]
    split
    · have hw2 : wfNode (TreeNode.mk n.path n.isDirectory true n.children) =
          true := by
        cases n with
        | mk q dd ee cs =>
          show wfNode (TreeNode.mk q dd true cs) = true
          rw [wfNode_flags q dd true dd ee]
          exact hw
      have hwM := wf_loadChildren hok hw2
      exact wf_map_children fs (restoreFuel fs S f)
        (restoreFuel_path fs S f) hwM
        (fun c hc => ih c (wf_child hwM hc).1)
    · exact hw

theorem wf_initRoot {fs : Fs} (hok : FsOk fs) (p : List String) :
    wfNode (initRootNode fs p) = true := by
  rw [initRootNode]
  exact wf_loadChildren hok (wf_leaf _ _ _)

theorem refreshTree_root_path (fs : Fs) (s : ViewerState) :
    (refreshTree fs s).root.path = s.rootPath := by
  show (restoreFuel fs _ _ (initRootNode fs s.rootPath)).path = s.rootPath
  rw [restoreFuel_path, initRootNode_path]

theorem wf_refreshTree {fs : Fs} (hok : FsOk fs) (s : ViewerState) :
    wfNode (refreshTree fs s).root = true := by
  show wfNode (restoreFuel fs _ _ (initRootNode fs s.rootPath)) = true
  exact wf_restoreFuel hok _ _ _ (wf_initRoot hok s.rootPath)

theorem toggleNode_root (fs : Fs) (s : ViewerState) :
    (toggleNode fs s).root = s.root ∨
      ∃ q, (toggleNode fs s).root = toggleAtPath fs s.root q := by
  rw [toggleNode]
  split
  · exact Or.inl rfl
  · split
    · exact Or.inr ⟨_, rfl⟩
    · exact Or.inl rfl

theorem expandNode_root (fs : Fs) (s : ViewerState) :
    (expandNode fs s).root = s.root ∨
      ∃ q, (expandNode fs s).root = toggleAtPath fs s.root q := by
  rw [expandNode]
  split
  · exact Or.inl rfl
  · split
    · split
      · exact Or.inr ⟨_, rfl⟩
      · exact Or.inl rfl
    · exact Or.inl rfl

theorem collapseNode_root (fs : Fs) (s : ViewerState) :
    (collapseNode fs s).root = s.root ∨
      ∃ q, (collapseNode fs s).root = toggleAtPath fs s.root q := by
  rw [collapseNode]
  split
  · split
    · split
      · exact Or.inr ⟨_, rfl⟩
      · split
        · exact Or.inl rfl
        · exact Or.inl rfl
    · exact Or.inl rfl
  · exact Or.inl rfl

theorem applyCmd_rootPath (fs : Fs) (u : ViewerState) (c : Cmd) :
    (applyCmd fs u c).rootPath = u.rootPath := by
  cases c with
  | up => rw [show applyCmd fs u Cmd.up = moveUp u from rfl, moveUp]
          split <;> rfl
  | down => rw [show applyCmd fs u Cmd.down = moveDown u from rfl, moveDown]
            split <;> rfl
  | enter => rfl
  | quit => rfl
  | space =>
    rw [show applyCmd fs u Cmd.space = toggleNode fs u from rfl, toggleNode]
    split
    · rfl
    · split <;> rfl
  | right =>
    rw [show applyCmd fs u Cmd.right = expandNode fs u from rfl, expandNode]
    split
    · rfl
    · split
      · split <;> rfl
      · rfl
  | left =>
    rw [show applyCmd fs u Cmd.left = collapseNode fs u from rfl, collapseNode]
    split
    · split
      · split
        · rfl
        · split <;> rfl
      · rfl
    · rfl
  | refresh => rfl

theorem applyCmd_root_wf_path {fs : Fs} (hok : FsOk fs) (u : ViewerState)
    (c : Cmd) (hw : wfNode u.root = true) :
    wfNode (applyCmd fs u c).root = true ∧
      ((applyCmd fs u c).root.path = u.root.path ∨
        (applyCmd fs u c).root.path = u.rootPath) := by
  cases c with
  | up =>
    rw [show applyCmd fs u Cmd.up = moveUp u from rfl, moveUp]
    split <;> exact ⟨hw, Or.inl rfl⟩
  | down =>
    rw [show applyCmd fs u Cmd.down = moveDown u from rfl, moveDown]
    split <;> exact ⟨hw, Or.inl rfl⟩
  | enter => exact ⟨hw, Or.inl rfl⟩
  | quit => exact ⟨hw, Or.inl rfl⟩
  | space =>
    rcases toggleNode_root fs u with h | ⟨q, h⟩
    · rw [show applyCmd fs u Cmd.space = toggleNode fs u from rfl, h]
      exact ⟨hw, Or.inl rfl⟩
    · rw [show applyCmd fs u Cmd.space = toggleNode fs u from rfl, h]
      exact ⟨wf_toggleAtPath hok u.root hw q,
        Or.inl (toggleAtPath_path fs u.root q)⟩
  | right =>
    rcases expandNode_root fs u with h | ⟨q, h⟩
    · rw [show applyCmd fs u Cmd.right = expandNode fs u from rfl, h]
      exact ⟨hw, Or.inl rfl⟩
    · rw [show applyCmd fs u Cmd.right = expandNode fs u from rfl, h]
      exact ⟨wf_toggleAtPath hok u.root hw q,
        Or.inl (toggleAtPath_path fs u.root q)⟩
  | left =>
    rcases collapseNode_root fs u with h | ⟨q, h⟩
    · rw [show applyCmd fs u Cmd.left = collapseNode fs u from rfl, h]
      exact ⟨hw, Or.inl rfl⟩
    · rw [show applyCmd fs u Cmd.left = collapseNode fs u from rfl, h]
      exact ⟨wf_toggleAtPath hok u.root hw q,
        Or.inl (toggleAtPath_path fs u.root q)⟩
  | refresh =>
    exact ⟨wf_refreshTree hok u, Or.inr (refreshTree_root_path fs u)⟩

theorem inv_updateDisplay {p : List String} {s : ViewerState}
    (h1 : s.rootPath = p) (h2 : s.root.path = p)
    (h3 : wfNode s.root = true) : StateInv p (updateDisplay s) := by
  have hb := updateDisplay_bounds s
  refine ⟨h1, h2, h3, hb.1, hb.2, ?_, ?_⟩
  · rw [updateDisplay_vis]
    exact collect_ne_nil _
  · rw [updateDisplay_vis, collect_head]
    rw [show Option.map TreeNode.path (some s.root) = some s.root.path from rfl]
    rw [h2]

theorem inv_step {fs : Fs} {p : List String} (hok : FsOk fs)
    {s : ViewerState} (hinv : StateInv p s) (c : Cmd) :
    StateInv p (step fs s c) := by
  rcases hinv with ⟨h1, h2, h3, _, _, _, _⟩
  have hu : StateInv p (updateDisplay s) := inv_updateDisplay h1 h2 h3
  rcases hu with ⟨hu1, hu2, hu3, hu4, hu5, hu6, hu7⟩
  have hb := applyCmd_bounds fs (updateDisplay s) c hu3 rfl hu4 hu5 hu6
  have hr := applyCmd_root_wf_path hok (updateDisplay s) c hu3
  refine ⟨?_, ?_, hr.1, hb.1, hb.2.1, ?_, ?_⟩
  · rw [show step fs s c = applyCmd fs (updateDisplay s) c from rfl,
      applyCmd_rootPath]
    exact hu1
  · rcases hr.2 with h | h
    · rw [show step fs s c = applyCmd fs (updateDisplay s) c from rfl, h]
      exact hu2
    · rw [show step fs s c = applyCmd fs (updateDisplay s) c from rfl, h]
      exact hu1
  · rw [show step fs s c = applyCmd fs (updateDisplay s) c from rfl, hb.2.2]
    exact hu6
  · rw [show step fs s c = applyCmd fs (updateDisplay s) c from rfl, hb.2.2]
    exact hu7

theorem reachable_inv {fs : Fs} {p : List String} (hok : FsOk fs)
    {s : ViewerState} (hr : Reachable fs p s) : StateInv p s := by
  induction hr with
  | init =>
    refine inv_updateDisplay rfl ?_ ?_
    · exact initRootNode_path fs p
    · exact wf_initRoot hok p
  | next c hr ih => exact inv_step hok ih c

theorem fsA_ok : FsOk fsA := by
  intro p ns h
  have h2 : (if p = ["r"] then some ["a"]
      else if p = ["r", "a"] then some [] else none) = some ns := h
  split at h2
  · injection h2 with h3
    rw [← h3]
    decide
  · split at h2
    · injection h2 with h3
      rw [← h3]
      decide
    · cases h2

/-- C10: in every state reachable from construction by any command sequence
(over a listing oracle that returns duplicate-free entries), the cached
visible sequence is non-empty and its first element carries the root path;
the flattening unconditionally emits the node it starts from, so the
freshly rendered sequence literally begins with the root node; consequently
select-and-exit always has a node to return (its result is `some`), making
the empty-sequence no-op branch unreachable. -/
theorem c10_root_first_select_total (fs : Fs) (p : List String)
    (s : ViewerState) (hok : FsOk fs) (hr : Reachable fs p s) :
    s.visibleNodes ≠ [] ∧
      s.visibleNodes.head?.map TreeNode.path = some p ∧
      (updateDisplay s).visibleNodes.head? = some s.root ∧
      (selectResult s).isSome = true := by
  rcases reachable_inv hok hr with ⟨_, _, _, h4, h5, h6, h7⟩
  refine ⟨h6, h7, ?_, ?_⟩
  · rw [updateDisplay_vis, collect_head]
  · rw [selectResult, if_neg (by simp [List.isEmpty_iff, h6])]
    have hlt : s.selectedIndex.toNat < s.visibleNodes.length := by omega
    rw [List.getElem?_eq_getElem hlt]
    rfl

theorem c10_root_first_select_total_witness :
    FsOk fsA ∧
      ((initState fsA ["r"]).visibleNodes ≠ [] ∧
        (initState fsA ["r"]).visibleNodes.head?.map TreeNode.path =
          some ["r"] ∧
        (updateDisplay (initState fsA ["r"])).visibleNodes.head? =
          some (initState fsA ["r"]).root ∧
        (selectResult (initState fsA ["r"])).isSome = true) :=
  ⟨fsA_ok, c10_root_first_select_total fsA ["r"] _ fsA_ok Reachable.init⟩
